import Mathlib

/-!
Verification of the Sudoku solving and generation core of the
SudokuProject repository (headers `sudoku.h`, `generator.h`, entry point
`main.cpp`).  The implementation files `src/sudoku.cpp` and
`src/generator.cpp` are not part of the available sources, so every
operation below is modelled from the specification document
(sections 3, 4.1 to 4.6) and the doc comments of the headers.

The 9x9 board of `int**` cells is embedded as a total function
`Nat -> Nat -> Nat`; only the cells with both indices below 9 are ever
consulted.  Empty cells hold 0.  The in-place mutation of the C++ code
becomes explicit state passing: each solver returns the pair of its
boolean result and the final state of the board.
-/

namespace Sudoku

/-- A 9x9 Sudoku board: a mapping from (row, column) to a digit, 0 meaning
empty.  Cells outside the 9x9 range are irrelevant and never inspected. -/
def Grid : Type := Nat → Nat → Nat

/-- Writing value `v` into cell `(r, c)` of the board, the embedding of the
assignment `BOARD[r][c] = v`. -/
def setCell (g : Grid) (r c v : Nat) : Grid :=
  fun i j => if i = r ∧ j = c then v else g i j

/-- Modelled from the spec: `isValid(grid, row, col, digit)` of `sudoku.h`
(spec section 4.1; the implementation file `src/sudoku.cpp` is missing).
Scans row `r`, column `c` and the 3x3 box containing `(r, c)` for another
cell that already holds `k`, and returns true when no such cell exists. -/
def isValid (g : Grid) (r c k : Nat) : Bool :=
  ((List.range 9).all fun j => j == c || g r j != k) &&
  ((List.range 9).all fun i => i == r || g i c != k) &&
  ((List.range 3).all fun i => (List.range 3).all fun j =>
    (3 * (r / 3) + i == r && 3 * (c / 3) + j == c) ||
      g (3 * (r / 3) + i) (3 * (c / 3) + j) != k)

/-- The digits a solver tries, in the ascending order of the C++ loop
over 1..9. -/
def digits : List Nat := [1, 2, 3, 4, 5, 6, 7, 8, 9]

/-- Number of digits 1..9 that `isValid` accepts at cell `(r, c)` — the
candidate count of the Minimum-Remaining-Values heuristic
(spec section 4.3). -/
def countCandidates (g : Grid) (r c : Nat) : Nat :=
  (digits.filter (fun d => isValid g r c d)).length

/-- The `INT_MAX` sentinel count of `findNextCell` (header doc of
`sudoku.h`: "Returns (-1, -1, INT_MAX) if no empty cells are found"). -/
def INT_MAX : Int := 2147483647

/-- Modelled from the spec: the scan loop of `findNextCell`
(spec section 4.3; implementation missing).  `m` counts the cells still
to visit, `k` is the row-major index of the next cell (cell `k` is
`(k / 9, k % 9)`), and `best` is the best (row, col, count) seen so far.
A cell with count 0 or 1 is returned immediately (the two early exits);
otherwise the first cell with the strictly smallest count is kept. -/
def findNextCellAux (g : Grid) : Nat → Nat → Int × Int × Int → Int × Int × Int
  | 0, _, best => best
  | m + 1, k, best =>
    if g (k / 9) (k % 9) = 0 then
      if countCandidates g (k / 9) (k % 9) ≤ 1 then
        (((k / 9 : Nat) : Int), ((k % 9 : Nat) : Int),
          (countCandidates g (k / 9) (k % 9) : Int))
      else if (countCandidates g (k / 9) (k % 9) : Int) < best.2.2 then
        findNextCellAux g m (k + 1)
          (((k / 9 : Nat) : Int), ((k % 9 : Nat) : Int),
            (countCandidates g (k / 9) (k % 9) : Int))
      else findNextCellAux g m (k + 1) best
    else findNextCellAux g m (k + 1) best

/-- Modelled from the spec: `findNextCell(grid)` of `sudoku.h`
(spec section 4.3).  Scans all 81 cells in row-major order starting from
the sentinel `(-1, -1, INT_MAX)`. -/
def findNextCell (g : Grid) : Int × Int × Int :=
  findNextCellAux g 81 0 (-1, -1, INT_MAX)

/-- Modelled from the spec: the digit loop shared by both solvers
(spec sections 4.2 and 4.4).  `go` is the recursive continuation of the
enclosing solver.  For each digit of `ds` accepted by `isValid` the cell
`(r, c)` is assigned, the continuation runs, and on failure the trial
assignment is reset to 0 before the next digit; an exhausted list means
failure. -/
def tryDigitsWith (go : Grid → Bool × Grid) (g : Grid) (r c : Nat) :
    List Nat → Bool × Grid
  | [] => (false, g)
  | d :: ds =>
    if isValid g r c d then
      match go (setCell g r c d) with
      | (true, g') => (true, g')
      | (false, g') => tryDigitsWith go (setCell g' r c 0) r c ds
    else tryDigitsWith go g r c ds

/-- Modelled from the spec: `solveBoard(grid, r, c)` of `sudoku.h`
(spec section 4.2; implementation missing), with an explicit fuel
parameter standing for the call depth of the C++ recursion over cell
positions.  Row 9 means terminal success; column 9 wraps to the next
row; a nonzero cell is skipped; an empty cell goes through the digit
loop.  The fuel 100 used by `solveBoard` never runs out for calls
starting inside the board (proved below). -/
def solveBoardFuel : Nat → Grid → Nat → Nat → Bool × Grid
  | 0, g, _, _ => (false, g)
  | fuel + 1, g, r, c =>
    if 9 ≤ r then (true, g)
    else if 9 ≤ c then solveBoardFuel fuel g (r + 1) 0
    else if g r c ≠ 0 then solveBoardFuel fuel g r (c + 1)
    else tryDigitsWith (fun h => solveBoardFuel fuel h r (c + 1)) g r c digits

/-- Modelled from the spec: `solveBoard(grid, r, c)` of `sudoku.h`
(spec section 4.2).  The fuel 100 dominates the longest possible chain
of position advances from any cell of the board. -/
def solveBoard (g : Grid) (r c : Nat) : Bool × Grid :=
  solveBoardFuel 100 g r c

/-- Modelled from the spec: the body of `solveBoardEfficient`
(spec section 4.4; implementation missing), with fuel standing for the
recursion depth.  The cell selector picks the next cell; the sentinel
means the board is complete; a cell with count 0 is a pruned dead end;
otherwise the digit loop runs on the selected cell. -/
def solveEffFuel : Nat → Grid → Bool × Grid
  | 0, g => (false, g)
  | fuel + 1, g =>
    if (findNextCell g).1 = -1 then (true, g)
    else if (findNextCell g).2.2 = 0 then (false, g)
    else tryDigitsWith (fun h => solveEffFuel fuel h) g
      (findNextCell g).1.toNat (findNextCell g).2.1.toNat digits

/-- Modelled from the spec: `solveBoardEfficient(grid)` of `sudoku.h`
(spec section 4.4).  Every recursive call fills one empty cell, so the
fuel 82 exceeds the number of empty cells of any board. -/
def solveBoardEfficient (g : Grid) : Bool × Grid :=
  solveEffFuel 82 g

/-- Modelled from the spec: `solve(board, efficient)` of `sudoku.h`
(spec section 4.5) — pure routing between the two solvers. -/
def solve (g : Grid) (efficient : Bool) : Bool × Grid :=
  if efficient then solveBoardEfficient g else solveBoard g 0 0

/-- Modelled from the spec: the board produced by `getEmptyBoard()` of
`generator.h` — all cells 0. -/
def emptyGrid : Grid := fun _ _ => 0

/-- Modelled from the spec: `fillBoardWithIndependentBox` of
`generator.h` (spec section 4.6 step 2; implementation missing).  The
three diagonal 3x3 boxes are filled row-major from the three shuffled
vectors `p0`, `p1`, `p2`; every other cell stays 0. -/
def diagSeeded (p0 p1 p2 : List Nat) : Grid := fun i j =>
  if i < 3 ∧ j < 3 then p0.getD (3 * i + j) 0
  else if 3 ≤ i ∧ i < 6 ∧ 3 ≤ j ∧ j < 6 then p1.getD (3 * (i - 3) + (j - 3)) 0
  else if 6 ≤ i ∧ i < 9 ∧ 6 ≤ j ∧ j < 9 then p2.getD (3 * (i - 6) + (j - 6)) 0
  else 0

/-- Modelled from the spec: `deleteRandomItems(board, n)` of
`generator.h` (spec section 4.6 step 4; implementation missing).  The
observable outcome of the randomized deduplicating loop is the list of
the distinct cell coordinates it picked; each of them is cleared to 0. -/
def deleteRandomItems (g : Grid) (coords : List (Nat × Nat)) : Grid :=
  coords.foldl (fun h p => setCell h p.1 p.2 0) g

/-- Modelled from the spec: `generateBoard(emptyCount)` of `generator.h`
(spec section 4.6; implementation missing).  The random choices are made
explicit parameters: the three shuffled vectors seeding the diagonal
boxes and the list of distinct coordinates that the deletion step
clears (its length is `emptyCount`).  The board is seeded, handed to the
plain solver, and then the cells are deleted. -/
def generateBoard (p0 p1 p2 : List Nat) (coords : List (Nat × Nat)) : Grid :=
  deleteRandomItems (solveBoard (diagSeeded p0 p1 p2) 0 0).2 coords

/-! ## Specification-side predicates

These predicates state, independently of the scan loops above, what the
contracts of the spec mean for a board. -/

/-- Cells `(r, c)` and `(i, j)` share a row, a column, or a 3x3 box. -/
def sameUnit (r c i j : Nat) : Prop :=
  i = r ∨ j = c ∨ (i / 3 = r / 3 ∧ j / 3 = c / 3)

instance (r c i j : Nat) : Decidable (sameUnit r c i j) := by
  unfold sameUnit; infer_instance

/-- The digit in cell `(r, c)` appears in no other cell of its row,
column, or box. -/
def noConflictAt (s : Grid) (r c : Nat) : Prop :=
  ∀ i, i < 9 → ∀ j, j < 9 → sameUnit r c i j → ¬(i = r ∧ j = c) → s i j ≠ s r c

instance (s : Grid) (r c : Nat) : Decidable (noConflictAt s r c) := by
  unfold noConflictAt; infer_instance

/-- `s` keeps every nonzero cell of `g`. -/
def extendsTo (g s : Grid) : Prop :=
  ∀ i, i < 9 → ∀ j, j < 9 → g i j ≠ 0 → s i j = g i j

instance (g s : Grid) : Decidable (extendsTo g s) := by
  unfold extendsTo; infer_instance

/-- Every cell of the board is assigned. -/
def Filled (s : Grid) : Prop :=
  ∀ i, i < 9 → ∀ j, j < 9 → s i j ≠ 0

instance (s : Grid) : Decidable (Filled s) := by
  unfold Filled; infer_instance

/-- `s` is a completion of `g` as currently constrained (spec
sections 4.2 and 8): it keeps the given cells of `g`, fills every cell,
and every cell that was empty in `g` received a digit 1..9 that appears
nowhere else in its row, column, or box. -/
def Completion (g s : Grid) : Prop :=
  extendsTo g s ∧ Filled s ∧
    ∀ i, i < 9 → ∀ j, j < 9 → g i j = 0 →
      1 ≤ s i j ∧ s i j ≤ 9 ∧ noConflictAt s i j

instance (g s : Grid) : Decidable (Completion g s) := by
  unfold Completion; infer_instance

/-- The board, as currently constrained, has a completion. -/
def Solvable (g : Grid) : Prop := ∃ s, Completion g s

/-- No two given cells of the board conflict: every nonzero cell's digit
appears nowhere else in its row, column, or box. -/
def ConflictFree (g : Grid) : Prop :=
  ∀ r, r < 9 → ∀ c, c < 9 → g r c ≠ 0 → noConflictAt g r c

instance (g : Grid) : Decidable (ConflictFree g) := by
  unfold ConflictFree; infer_instance

/-- The list of values of row `r`. -/
def rowList (g : Grid) (r : Nat) : List Nat :=
  (List.range 9).map fun j => g r j

/-- The list of values of column `c`. -/
def colList (g : Grid) (c : Nat) : List Nat :=
  (List.range 9).map fun i => g i c

/-- The list of values of box `b` (boxes numbered 0..8 row-major; the
cells of a box are listed row-major as well). -/
def boxList (g : Grid) (b : Nat) : List Nat :=
  (List.range 9).map fun t => g (3 * (b / 3) + t / 3) (3 * (b % 3) + t % 3)

/-- Number of empty cells of the board. -/
def numZeros (g : Grid) : Nat :=
  ((List.range 81).filter fun t => g (t / 9) (t % 9) == 0).length

/-- Number of assigned (nonzero) cells of the board. -/
def numFilled (g : Grid) : Nat :=
  ((List.range 81).filter fun t => !(g (t / 9) (t % 9) == 0)).length

/-- The property that `isValid` decides (spec section 4.1): digit `k`
appears in no cell of the row, column, or box of `(r, c)` other than
`(r, c)` itself. -/
def validAt (g : Grid) (r c k : Nat) : Prop :=
  ∀ i, i < 9 → ∀ j, j < 9 → sameUnit r c i j → ¬(i = r ∧ j = c) → g i j ≠ k

instance (g : Grid) (r c k : Nat) : Decidable (validAt g r c k) := by
  unfold validAt; infer_instance

/-- Cells strictly before `(r, c)` in the row-major scan are all
assigned — the invariant that the plain solver maintains. -/
def beforeFilled (g : Grid) (r c : Nat) : Prop :=
  ∀ i, i < 9 → ∀ j, j < 9 → (i < r ∨ (i = r ∧ j < c)) → g i j ≠ 0

/-- Fuel bound dominating the remaining chain of position advances from
cell `(r, c)`. -/
def steps (r c : Nat) : Nat := 10 * (9 - r) + (10 - min c 9)

/-! ## Concrete boards

Test fixtures: externally loaded boards in the sense of the data model
(spec section 3), written as row lists. -/

/-- A board given by its list of rows (missing entries are 0). -/
def gridOf (rows : List (List Nat)) : Grid :=
  fun i j => (rows.getD i []).getD j 0

/-- A complete valid board: the canonical shift pattern. -/
def shiftSol : Grid := gridOf [
  [1, 2, 3, 4, 5, 6, 7, 8, 9],
  [4, 5, 6, 7, 8, 9, 1, 2, 3],
  [7, 8, 9, 1, 2, 3, 4, 5, 6],
  [2, 1, 4, 3, 6, 5, 8, 9, 7],
  [3, 6, 5, 8, 9, 7, 2, 1, 4],
  [8, 9, 7, 2, 1, 4, 3, 6, 5],
  [5, 3, 1, 6, 4, 2, 9, 7, 8],
  [6, 4, 2, 9, 7, 8, 5, 3, 1],
  [9, 7, 8, 5, 3, 1, 6, 4, 2]]

/-- `shiftSol` with the digits 1 and 2 interchanged — a second complete
valid board. -/
def shiftSol2 : Grid := gridOf [
  [2, 1, 3, 4, 5, 6, 7, 8, 9],
  [4, 5, 6, 7, 8, 9, 2, 1, 3],
  [7, 8, 9, 2, 1, 3, 4, 5, 6],
  [1, 2, 4, 3, 6, 5, 8, 9, 7],
  [3, 6, 5, 8, 9, 7, 1, 2, 4],
  [8, 9, 7, 1, 2, 4, 3, 6, 5],
  [5, 3, 2, 6, 4, 1, 9, 7, 8],
  [6, 4, 1, 9, 7, 8, 5, 3, 2],
  [9, 7, 8, 5, 3, 2, 6, 4, 1]]

/-- A board whose cell (0, 0) is empty with no candidate left: row 0
holds 1..8 and cell (1, 0) holds 9.  No board extending it can assign
(0, 0), so it is unsolvable. -/
def gU : Grid := gridOf [[0, 1, 2, 3, 4, 5, 6, 7, 8], [9]]

/-- A board where the scan meets a cell with exactly one candidate
(cell (0, 0), candidate 9) before a cell with zero candidates
(cell (0, 8): row 1..7, column 8 and 9). -/
def gX : Grid := gridOf [
  [0, 1, 2, 3, 4, 5, 6, 7, 0],
  [0, 0, 0, 0, 0, 0, 0, 0, 8],
  [8, 0, 0, 0, 0, 0, 0, 0, 9]]

/-- The spec's concrete validator scenario: a board with cells (0,0)
and (0,1) both 5. -/
def g55 : Grid := gridOf [[5, 5]]

/-- A board with every cell assigned (no empty cells). -/
def sevens : Grid := fun _ _ => 7

/-- The deletion outcome that clears all 81 cells (row-major). -/
def coords81 : List (Nat × Nat) :=
  (List.range 81).map fun t => (t / 9, t % 9)

/-! ## Basic lemmas about cells and `isValid` -/

theorem setCell_at (g : Grid) (r c v : Nat) : setCell g r c v r c = v := by
  simp [setCell]

theorem setCell_ne (g : Grid) (r c v i j : Nat) (h : ¬(i = r ∧ j = c)) :
    setCell g r c v i j = g i j := by
  simp [setCell, h]

theorem setCell_cancel (g : Grid) (r c d : Nat) (h : g r c = 0) :
    setCell (setCell g r c d) r c 0 = g := by
  funext i j
  by_cases hij : i = r ∧ j = c
  · obtain ⟨hi, hj⟩ := hij
    subst hi; subst hj
    simp [setCell, h]
  · simp [setCell, hij]

theorem sameUnit_symm {r c i j : Nat} (h : sameUnit r c i j) : sameUnit i j r c := by
  unfold sameUnit at *
  omega

theorem sameUnit_row {r c j : Nat} : sameUnit r c r j := Or.inl rfl

theorem sameUnit_col {r c i : Nat} : sameUnit r c i c := Or.inr (Or.inl rfl)

theorem isValid_iff (g : Grid) (r c k : Nat) (hr : r < 9) (hc : c < 9) :
    isValid g r c k = true ↔ validAt g r c k := by
  simp only [isValid, Bool.and_eq_true, List.all_eq_true, List.mem_range,
    Bool.or_eq_true, beq_iff_eq, bne_iff_ne]
  constructor
  · rintro ⟨⟨hrow, hcol⟩, hbox⟩ i hi j hj hu hne
    rcases hu with hu | hu | hu
    · subst hu
      rcases hrow j hj with h | h
      · exact absurd ⟨rfl, h⟩ hne
      · exact h
    · subst hu
      rcases hcol i hi with h | h
      · exact absurd ⟨h, rfl⟩ hne
      · exact h
    · obtain ⟨hu1, hu2⟩ := hu
      have hi3 : i - 3 * (r / 3) < 3 := by omega
      have hj3 : j - 3 * (c / 3) < 3 := by omega
      have := hbox (i - 3 * (r / 3)) hi3 (j - 3 * (c / 3)) hj3
      have hieq : 3 * (r / 3) + (i - 3 * (r / 3)) = i := by omega
      have hjeq : 3 * (c / 3) + (j - 3 * (c / 3)) = j := by omega
      rw [hieq, hjeq] at this
      rcases this with ⟨h1, h2⟩ | h
      · exact absurd ⟨h1, h2⟩ hne
      · exact h
  · intro hv
    refine ⟨⟨?_, ?_⟩, ?_⟩
    · intro j hj
      by_cases hjc : j = c
      · exact Or.inl hjc
      · exact Or.inr (hv r hr j hj sameUnit_row (fun h => hjc h.2))
    · intro i hi
      by_cases hir : i = r
      · exact Or.inl hir
      · exact Or.inr (hv i hi c hc sameUnit_col (fun h => hir h.1))
    · intro i hi j hj
      by_cases hrc : 3 * (r / 3) + i = r ∧ 3 * (c / 3) + j = c
      · exact Or.inl hrc
      · refine Or.inr (hv (3 * (r / 3) + i) (by omega) (3 * (c / 3) + j) (by omega)
          (Or.inr (Or.inr ⟨by omega, by omega⟩)) hrc)

theorem mem_digits {d : Nat} : d ∈ digits ↔ 1 ≤ d ∧ d ≤ 9 := by
  simp only [digits, List.mem_cons, List.not_mem_nil, or_false]
  omega

theorem countCandidates_le_nine (g : Grid) (r c : Nat) :
    countCandidates g r c ≤ 9 := by
  have h := List.length_filter_le (fun d => isValid g r c d) digits
  simpa [digits, countCandidates] using h

theorem countCandidates_pos (g : Grid) (r c d : Nat) (hd : d ∈ digits)
    (hv : isValid g r c d = true) : 0 < countCandidates g r c := by
  have : d ∈ digits.filter (fun d => isValid g r c d) :=
    List.mem_filter.mpr ⟨hd, hv⟩
  have := List.length_pos_of_mem this
  simpa [countCandidates] using this

/-! ## The digit loop -/

theorem tryDigits_restore (go : Grid → Bool × Grid)
    (hgo : ∀ h g', go h = (false, g') → g' = h)
    (g : Grid) (r c : Nat) (hg : g r c = 0) :
    ∀ ds g', tryDigitsWith go g r c ds = (false, g') → g' = g := by
  intro ds
  induction ds with
  | nil =>
    intro g' h
    simp only [tryDigitsWith, Prod.mk.injEq, true_and] at h
    exact h.symm
  | cons d ds ih =>
    intro g' h
    simp only [tryDigitsWith] at h
    split at h
    · split at h
      · simp at h
      · rename_i g1 heq
        rw [hgo _ _ heq, setCell_cancel g r c d hg] at h
        exact ih g' h
    · exact ih g' h

theorem tryDigits_sound (go : Grid → Bool × Grid)
    (hgo : ∀ h g', go h = (false, g') → g' = h)
    (g : Grid) (r c : Nat) (hg : g r c = 0) :
    ∀ ds g', tryDigitsWith go g r c ds = (true, g') →
      ∃ d ∈ ds, isValid g r c d = true ∧ go (setCell g r c d) = (true, g') := by
  intro ds
  induction ds with
  | nil =>
    intro g' h
    simp [tryDigitsWith] at h
  | cons d ds ih =>
    intro g' h
    simp only [tryDigitsWith] at h
    split at h
    · rename_i hvalid
      split at h
      · rename_i g1 heq
        simp only [Prod.mk.injEq, true_and] at h
        exact ⟨d, List.mem_cons_self d ds, hvalid, by rw [heq, h]⟩
      · rename_i g1 heq
        rw [hgo _ _ heq, setCell_cancel g r c d hg] at h
        obtain ⟨d', hd', hv', hrec⟩ := ih g' h
        exact ⟨d', List.mem_cons_of_mem _ hd', hv', hrec⟩
    · obtain ⟨d', hd', hv', hrec⟩ := ih g' h
      exact ⟨d', List.mem_cons_of_mem _ hd', hv', hrec⟩

theorem tryDigits_complete (go : Grid → Bool × Grid)
    (hgo : ∀ h g', go h = (false, g') → g' = h)
    (g : Grid) (r c : Nat) (hg : g r c = 0) :
    ∀ ds d₀, d₀ ∈ ds → isValid g r c d₀ = true →
      (go (setCell g r c d₀)).1 = true →
      (tryDigitsWith go g r c ds).1 = true := by
  intro ds
  induction ds with
  | nil =>
    intro d₀ h
    simp at h
  | cons d ds ih =>
    intro d₀ hmem hv hsucc
    simp only [tryDigitsWith]
    rcases List.mem_cons.mp hmem with heq | hmem'
    · subst heq
      rw [if_pos hv]
      rcases hp : go (setCell g r c d₀) with ⟨b, g1⟩
      rw [hp] at hsucc
      simp only at hsucc
      subst hsucc
      simp [hp]
    · by_cases hv' : isValid g r c d = true
      · rw [if_pos hv']
        rcases hp : go (setCell g r c d) with ⟨b, g1⟩
        cases b
        · have hg1 : g1 = setCell g r c d := hgo _ _ hp
          simp only [hp]
          rw [hg1, setCell_cancel g r c d hg]
          exact ih d₀ hmem' hv hsucc
        · simp [hp]
      · rw [if_neg hv']
        exact ih d₀ hmem' hv hsucc

/-! ## The plain solver -/

/-- On failure the plain solver hands back exactly the board it was
given: every trial assignment has been undone (spec section 4.2). -/
theorem solveFuel_restore :
    ∀ fuel g r c g', solveBoardFuel fuel g r c = (false, g') → g' = g := by
  intro fuel
  induction fuel with
  | zero =>
    intro g r c g' h
    simp only [solveBoardFuel, Prod.mk.injEq, true_and] at h
    exact h.symm
  | succ fuel ih =>
    intro g r c g' h
    simp only [solveBoardFuel] at h
    by_cases hr : 9 ≤ r
    · rw [if_pos hr] at h
      simp at h
    · rw [if_neg hr] at h
      by_cases hc : 9 ≤ c
      · rw [if_pos hc] at h
        exact ih _ _ _ _ h
      · rw [if_neg hc] at h
        by_cases hnz : g r c ≠ 0
        · rw [if_pos hnz] at h
          exact ih _ _ _ _ h
        · rw [if_neg hnz] at h
          have hg : g r c = 0 := by omega
          exact tryDigits_restore _ (fun h g' => ih h r (c + 1) g') g r c hg digits g' h

/-- One backtracking step: a completion of the board extended with a
digit that `isValid` accepted is also a completion of the original
board. -/
theorem completion_step (g s : Grid) (r c d : Nat) (hr : r < 9) (hc : c < 9)
    (hg : g r c = 0) (hd1 : 1 ≤ d) (hd9 : d ≤ 9)
    (hv : isValid g r c d = true)
    (hcomp : Completion (setCell g r c d) s) : Completion g s := by
  obtain ⟨hext, hfill, hrest⟩ := hcomp
  have hval := (isValid_iff g r c d hr hc).mp hv
  have hsrc : s r c = d := by
    have := hext r hr c hc (by rw [setCell_at]; omega)
    rwa [setCell_at] at this
  refine ⟨?_, hfill, ?_⟩
  · intro i hi j hj hnz
    have hne : ¬(i = r ∧ j = c) := by
      rintro ⟨hi', hj'⟩
      subst hi'; subst hj'
      exact hnz hg
    have := hext i hi j hj (by rwa [setCell_ne g r c d i j hne])
    rwa [setCell_ne g r c d i j hne] at this
  · intro i hi j hj hz
    by_cases hij : i = r ∧ j = c
    · obtain ⟨hi', hj'⟩ := hij
      have hi2 : r = i := hi'.symm
      have hj2 : c = j := hj'.symm
      subst hi2; subst hj2
      refine ⟨by rw [hsrc]; omega, by rw [hsrc]; omega, ?_⟩
      intro x hx y hy hu hne
      by_cases hnz : setCell g r c d x y = 0
      · have h3 := hrest x hx y hy hnz
        have hne' : ¬(r = x ∧ c = y) := by
          rintro ⟨h1, h2⟩
          exact hne ⟨h1.symm, h2.symm⟩
        exact (h3.2.2 r hr c hc (sameUnit_symm hu) hne').symm
      · have hset : setCell g r c d x y = g x y := setCell_ne g r c d x y hne
        have hsxy : s x y = g x y := by
          have := hext x hx y hy hnz
          rwa [hset] at this
        rw [hsxy, hsrc]
        exact hval x hx y hy hu hne
    · have hz' : setCell g r c d i j = 0 := by
        rw [setCell_ne g r c d i j hij]; exact hz
      exact hrest i hi j hj hz'

/-- Soundness of the plain solver: a `true` result is a completion of
the input board (given that the scan position is ahead of every empty
cell). -/
theorem solveFuel_sound :
    ∀ fuel g r c g', solveBoardFuel fuel g r c = (true, g') →
      beforeFilled g r c → Completion g g' := by
  intro fuel
  induction fuel with
  | zero =>
    intro g r c g' h
    simp [solveBoardFuel] at h
  | succ fuel ih =>
    intro g r c g' h hinv
    simp only [solveBoardFuel] at h
    by_cases hr : 9 ≤ r
    · rw [if_pos hr] at h
      simp only [Prod.mk.injEq, true_and] at h
      subst h
      refine ⟨fun i hi j hj _ => rfl, fun i hi j hj => hinv i hi j hj (by omega), ?_⟩
      intro i hi j hj hz
      exact absurd hz (hinv i hi j hj (by omega))
    · rw [if_neg hr] at h
      by_cases hc : 9 ≤ c
      · rw [if_pos hc] at h
        exact ih g (r + 1) 0 g' h
          (fun i hi j hj hcond => hinv i hi j hj (by omega))
      · rw [if_neg hc] at h
        by_cases hnz : g r c ≠ 0
        · rw [if_pos hnz] at h
          refine ih g r (c + 1) g' h ?_
          intro i hi j hj hcond
          by_cases hij : i = r ∧ j = c
          · obtain ⟨h1, h2⟩ := hij
            subst h1; subst h2
            exact hnz
          · exact hinv i hi j hj (by omega)
        · rw [if_neg hnz] at h
          have hg : g r c = 0 := by omega
          have hrlt : r < 9 := by omega
          have hclt : c < 9 := by omega
          obtain ⟨d, hdmem, hdval, hrec⟩ :=
            tryDigits_sound _ (fun h g' => solveFuel_restore fuel h r (c + 1) g')
              g r c hg digits g' h
          have hd := mem_digits.mp hdmem
          have hinv' : beforeFilled (setCell g r c d) r (c + 1) := by
            intro i hi j hj hcond
            by_cases hij : i = r ∧ j = c
            · obtain ⟨h1, h2⟩ := hij
              subst h1; subst h2
              rw [setCell_at]
              omega
            · rw [setCell_ne g r c d i j hij]
              exact hinv i hi j hj (by omega)
          exact completion_step g g' r c d hrlt hclt hg hd.1 hd.2 hdval
            (ih _ r (c + 1) g' hrec hinv')

/-- The digit that the completion `s` holds at an empty cell passes
`isValid` on the current board. -/
theorem completion_digit_valid (g s : Grid) (r c : Nat) (hrlt : r < 9)
    (hclt : c < 9) (hg : g r c = 0) (hcomp : Completion g s) :
    isValid g r c (s r c) = true := by
  obtain ⟨hext, hfill, hrest⟩ := hcomp
  obtain ⟨h1, h9, hnc⟩ := hrest r hrlt c hclt hg
  rw [isValid_iff g r c _ hrlt hclt]
  intro x hx y hy hu hne
  by_cases hz : g x y = 0
  · rw [hz]; omega
  · have hsx := hext x hx y hy hz
    have hns := hnc x hx y hy hu hne
    rw [← hsx]
    exact hns

/-- A completion of a board also completes the board extended with the
completion's own digit at an empty cell. -/
theorem completion_setCell (g s : Grid) (r c : Nat) (hrlt : r < 9)
    (hclt : c < 9) (hg : g r c = 0) (hcomp : Completion g s) :
    Completion (setCell g r c (s r c)) s := by
  obtain ⟨hext, hfill, hrest⟩ := hcomp
  refine ⟨?_, hfill, ?_⟩
  · intro i hi j hj hnz'
    by_cases hij : i = r ∧ j = c
    · obtain ⟨e1, e2⟩ := hij
      subst e1; subst e2
      rw [setCell_at]
    · rw [setCell_ne _ _ _ _ _ _ hij] at hnz' ⊢
      exact hext i hi j hj hnz'
  · intro i hi j hj hz'
    have hij : ¬(i = r ∧ j = c) := by
      rintro ⟨e1, e2⟩
      have e1' : r = i := e1.symm
      have e2' : c = j := e2.symm
      subst e1'; subst e2'
      rw [setCell_at] at hz'
      obtain ⟨h1, h9, hnc⟩ := hrest r hrlt c hclt hg
      omega
    rw [setCell_ne _ _ _ _ _ _ hij] at hz'
    exact hrest i hi j hj hz'

/-- Completeness of the plain solver: with enough fuel, a board that has
a completion is solved. -/
theorem solveFuel_complete :
    ∀ fuel r c g s, steps r c ≤ fuel → Completion g s →
      (solveBoardFuel fuel g r c).1 = true := by
  intro fuel
  induction fuel with
  | zero =>
    intro r c g s hsteps _
    exfalso
    simp only [steps] at hsteps
    omega
  | succ fuel ih =>
    intro r c g s hsteps hcomp
    simp only [solveBoardFuel]
    by_cases hr : 9 ≤ r
    · rw [if_pos hr]
    · rw [if_neg hr]
      by_cases hc : 9 ≤ c
      · rw [if_pos hc]
        exact ih (r + 1) 0 g s (by simp only [steps] at hsteps ⊢; omega) hcomp
      · rw [if_neg hc]
        by_cases hnz : g r c ≠ 0
        · rw [if_pos hnz]
          exact ih r (c + 1) g s (by simp only [steps] at hsteps ⊢; omega) hcomp
        · rw [if_neg hnz]
          have hg : g r c = 0 := by omega
          have hrlt : r < 9 := by omega
          have hclt : c < 9 := by omega
          have hvalid := completion_digit_valid g s r c hrlt hclt hg hcomp
          have hcomp' := completion_setCell g s r c hrlt hclt hg hcomp
          obtain ⟨h1, h9, hnc⟩ := hcomp.2.2 r hrlt c hclt hg
          exact tryDigits_complete _ (fun h g' => solveFuel_restore fuel h r (c + 1) g')
            g r c hg digits (s r c) (mem_digits.mpr ⟨h1, h9⟩) hvalid
            (ih r (c + 1) (setCell g r c (s r c)) s
              (by simp only [steps] at hsteps ⊢; omega) hcomp')

/-- The plain solver from the origin succeeds exactly on the boards
that have a completion. -/
theorem solveBoard_true_iff (g : Grid) :
    (solveBoard g 0 0).1 = true ↔ Solvable g := by
  constructor
  · intro h
    rcases hres : solveBoard g 0 0 with ⟨b, g'⟩
    rw [hres] at h
    simp only at h
    subst h
    refine ⟨g', solveFuel_sound 100 g 0 0 g' hres ?_⟩
    intro i hi j hj hcond
    exact absurd hcond (by omega)
  · rintro ⟨s, hs⟩
    exact solveFuel_complete 100 0 0 g s (by simp [steps]) hs

/-! ## The MRV cell selector -/

theorem findAux_none (g : Grid) :
    ∀ m k best, (∀ t, k ≤ t → t < k + m → g (t / 9) (t % 9) ≠ 0) →
      findNextCellAux g m k best = best := by
  intro m
  induction m with
  | zero => intro k best _; rfl
  | succ m ih =>
    intro k best hno
    simp only [findNextCellAux]
    rw [if_neg (hno k (le_refl k) (by omega))]
    exact ih (k + 1) best (fun t ht1 ht2 => hno t (by omega) (by omega))

theorem findAux_low (g : Grid) :
    ∀ m k best t₀, (2 : Int) ≤ best.2.2 →
      k ≤ t₀ → t₀ < k + m →
      g (t₀ / 9) (t₀ % 9) = 0 →
      countCandidates g (t₀ / 9) (t₀ % 9) ≤ 1 →
      (∀ t, k ≤ t → t < t₀ → g (t / 9) (t % 9) = 0 →
        2 ≤ countCandidates g (t / 9) (t % 9)) →
      findNextCellAux g m k best =
        (((t₀ / 9 : Nat) : Int), ((t₀ % 9 : Nat) : Int),
          (countCandidates g (t₀ / 9) (t₀ % 9) : Int)) := by
  intro m
  induction m with
  | zero => intro k best t₀ _ h1 h2 _ _ _; omega
  | succ m ih =>
    intro k best t₀ hb hk ht hz hcnt hfirst
    simp only [findNextCellAux]
    by_cases hke : t₀ = k
    · have hke' : k = t₀ := hke.symm
      subst hke'
      rw [if_pos hz, if_pos hcnt]
    · have hklt : k < t₀ := by omega
      by_cases hzk : g (k / 9) (k % 9) = 0
      · have h2k : 2 ≤ countCandidates g (k / 9) (k % 9) :=
          hfirst k (le_refl k) hklt hzk
        rw [if_pos hzk, if_neg (by omega)]
        by_cases hlt : (countCandidates g (k / 9) (k % 9) : Int) < best.2.2
        · rw [if_pos hlt]
          exact ih (k + 1)
            (((k / 9 : Nat) : Int), ((k % 9 : Nat) : Int),
              (countCandidates g (k / 9) (k % 9) : Int)) t₀
            (by simp only []; exact_mod_cast h2k) (by omega) (by omega) hz hcnt
            (fun t ht1 ht2 htz => hfirst t (by omega) ht2 htz)
        · rw [if_neg hlt]
          exact ih (k + 1) best t₀ hb (by omega) (by omega) hz hcnt
            (fun t ht1 ht2 htz => hfirst t (by omega) ht2 htz)
      · rw [if_neg hzk]
        exact ih (k + 1) best t₀ hb (by omega) (by omega) hz hcnt
          (fun t ht1 ht2 htz => hfirst t (by omega) ht2 htz)

theorem findAux_min (g : Grid) :
    ∀ m k best, (2 : Int) ≤ best.2.2 →
      (∀ t, k ≤ t → t < k + m → g (t / 9) (t % 9) = 0 →
        2 ≤ countCandidates g (t / 9) (t % 9)) →
      (findNextCellAux g m k best = best ∧
        ∀ t, k ≤ t → t < k + m → g (t / 9) (t % 9) = 0 →
          best.2.2 ≤ (countCandidates g (t / 9) (t % 9) : Int))
      ∨ (∃ t₀, k ≤ t₀ ∧ t₀ < k + m ∧ g (t₀ / 9) (t₀ % 9) = 0 ∧
          findNextCellAux g m k best =
            (((t₀ / 9 : Nat) : Int), ((t₀ % 9 : Nat) : Int),
              (countCandidates g (t₀ / 9) (t₀ % 9) : Int)) ∧
          (countCandidates g (t₀ / 9) (t₀ % 9) : Int) < best.2.2 ∧
          (∀ t, k ≤ t → t < k + m → g (t / 9) (t % 9) = 0 →
            countCandidates g (t₀ / 9) (t₀ % 9) ≤ countCandidates g (t / 9) (t % 9)) ∧
          (∀ t, k ≤ t → t < t₀ → g (t / 9) (t % 9) = 0 →
            countCandidates g (t₀ / 9) (t₀ % 9) < countCandidates g (t / 9) (t % 9))) := by
  intro m
  induction m with
  | zero =>
    intro k best hb _
    exact Or.inl ⟨rfl, fun t ht1 ht2 => absurd ht2 (by omega)⟩
  | succ m ih =>
    intro k best hb hnolow
    simp only [findNextCellAux]
    by_cases hzk : g (k / 9) (k % 9) = 0
    · have h2k : 2 ≤ countCandidates g (k / 9) (k % 9) :=
        hnolow k (le_refl k) (by omega) hzk
      rw [if_pos hzk, if_neg (by omega)]
      by_cases hlt : (countCandidates g (k / 9) (k % 9) : Int) < best.2.2
      · rw [if_pos hlt]
        rcases ih (k + 1)
            (((k / 9 : Nat) : Int), ((k % 9 : Nat) : Int),
              (countCandidates g (k / 9) (k % 9) : Int))
            (by simp only []; exact_mod_cast h2k)
            (fun t ht1 ht2 htz => hnolow t (by omega) (by omega) htz) with
          hres | hres
        · obtain ⟨heq, hbound⟩ := hres
          refine Or.inr ⟨k, le_refl k, by omega, hzk, heq, hlt, ?_, ?_⟩
          · intro t ht1 ht2 htz
            by_cases htk : t = k
            · subst htk; omega
            · have := hbound t (by omega) (by omega) htz
              simp only [] at this
              exact_mod_cast this
          · intro t ht1 ht2 htz
            omega
        · obtain ⟨t₀, ht0k, ht0m, ht0z, heq, ht0lt, hmin, hfst⟩ := hres
          have ht0lt' : countCandidates g (t₀ / 9) (t₀ % 9) <
              countCandidates g (k / 9) (k % 9) := by
            simp only [] at ht0lt
            exact_mod_cast ht0lt
          refine Or.inr ⟨t₀, by omega, by omega, ht0z, heq, by
              calc (countCandidates g (t₀ / 9) (t₀ % 9) : Int)
                  < (countCandidates g (k / 9) (k % 9) : Int) := by exact_mod_cast ht0lt'
                _ < best.2.2 := hlt, ?_, ?_⟩
          · intro t ht1 ht2 htz
            by_cases htk : t = k
            · subst htk; omega
            · exact hmin t (by omega) (by omega) htz
          · intro t ht1 ht2 htz
            by_cases htk : t = k
            · subst htk; exact ht0lt'
            · exact hfst t (by omega) ht2 htz
      · rw [if_neg hlt]
        rcases ih (k + 1) best hb
            (fun t ht1 ht2 htz => hnolow t (by omega) (by omega) htz) with
          hres | hres
        · obtain ⟨heq, hbound⟩ := hres
          refine Or.inl ⟨heq, ?_⟩
          intro t ht1 ht2 htz
          by_cases htk : t = k
          · subst htk; omega
          · exact hbound t (by omega) (by omega) htz
        · obtain ⟨t₀, ht0k, ht0m, ht0z, heq, ht0lt, hmin, hfst⟩ := hres
          refine Or.inr ⟨t₀, by omega, by omega, ht0z, heq, ht0lt, ?_, ?_⟩
          · intro t ht1 ht2 htz
            by_cases htk : t = k
            · subst htk; omega
            · exact hmin t (by omega) (by omega) htz
          · intro t ht1 ht2 htz
            by_cases htk : t = k
            · subst htk; omega
            · exact hfst t (by omega) ht2 htz
    · rw [if_neg hzk]
      rcases ih (k + 1) best hb
          (fun t ht1 ht2 htz => hnolow t (by omega) (by omega) htz) with
        hres | hres
      · obtain ⟨heq, hbound⟩ := hres
        refine Or.inl ⟨heq, ?_⟩
        intro t ht1 ht2 htz
        by_cases htk : t = k
        · subst htk; exact absurd htz hzk
        · exact hbound t (by omega) (by omega) htz
      · obtain ⟨t₀, ht0k, ht0m, ht0z, heq, ht0lt, hmin, hfst⟩ := hres
        refine Or.inr ⟨t₀, by omega, by omega, ht0z, heq, ht0lt, ?_, ?_⟩
        · intro t ht1 ht2 htz
          by_cases htk : t = k
          · subst htk; exact absurd htz hzk
          · exact hmin t (by omega) (by omega) htz
        · intro t ht1 ht2 htz
          by_cases htk : t = k
          · subst htk; exact absurd htz hzk
          · exact hfst t (by omega) ht2 htz

theorem findNextCell_of_filled (g : Grid) (hf : Filled g) :
    findNextCell g = (-1, -1, INT_MAX) := by
  unfold findNextCell
  exact findAux_none g 81 0 _
    (fun t ht1 ht2 => hf (t / 9) (by omega) (t % 9) (by omega))

theorem findNextCell_of_empty (g : Grid)
    (he : ∃ t, t < 81 ∧ g (t / 9) (t % 9) = 0) :
    ∃ r c, r < 9 ∧ c < 9 ∧ g r c = 0 ∧
      findNextCell g = ((r : Int), (c : Int), (countCandidates g r c : Int)) := by
  by_cases hlow : ∃ t, t < 81 ∧ g (t / 9) (t % 9) = 0 ∧
      countCandidates g (t / 9) (t % 9) ≤ 1
  · have ht₀ := Nat.find_spec hlow
    obtain ⟨ht81, htz, htcnt⟩ := ht₀
    refine ⟨Nat.find hlow / 9, Nat.find hlow % 9, by omega, by omega, htz, ?_⟩
    unfold findNextCell
    refine findAux_low g 81 0 (-1, -1, INT_MAX) (Nat.find hlow)
      (by norm_num [INT_MAX]) (by omega) (by omega) htz htcnt ?_
    intro t ht1 ht2 htz'
    have hnP := Nat.find_min hlow ht2
    by_contra hcnt'
    exact hnP ⟨by omega, htz', by omega⟩
  · obtain ⟨t₁, ht81, htz⟩ := he
    have hnolow : ∀ t, 0 ≤ t → t < 0 + 81 → g (t / 9) (t % 9) = 0 →
        2 ≤ countCandidates g (t / 9) (t % 9) := by
      intro t _ ht2 htz'
      by_contra hcnt'
      exact hlow ⟨t, by omega, htz', by omega⟩
    rcases findAux_min g 81 0 (-1, -1, INT_MAX) (by norm_num [INT_MAX]) hnolow with
      ⟨heq, hbound⟩ | ⟨t₀, ht0k, ht0m, ht0z, heq, ht0lt, hmin, hfst⟩
    · exfalso
      have hb := hbound t₁ (by omega) (by omega) htz
      have hle := countCandidates_le_nine g (t₁ / 9) (t₁ % 9)
      simp only [INT_MAX] at hb
      omega
    · exact ⟨t₀ / 9, t₀ % 9, by omega, by omega, ht0z, heq⟩

theorem filled_of_sentinel (g : Grid) (h1 : (findNextCell g).1 = -1) :
    Filled g := by
  by_contra hnf
  unfold Filled at hnf
  push_neg at hnf
  obtain ⟨i, hi, j, hj, hz⟩ := hnf
  have he : ∃ t, t < 81 ∧ g (t / 9) (t % 9) = 0 := by
    refine ⟨9 * i + j, by omega, ?_⟩
    have e1 : (9 * i + j) / 9 = i := by omega
    have e2 : (9 * i + j) % 9 = j := by omega
    rw [e1, e2, hz]
  obtain ⟨r, c, _, _, _, heq⟩ := findNextCell_of_empty g he
  rw [heq] at h1
  simp at h1

theorem findNextCell_branch (g : Grid) (hne : ¬(findNextCell g).1 = -1) :
    ∃ r c, r < 9 ∧ c < 9 ∧ g r c = 0 ∧
      findNextCell g = ((r : Int), (c : Int), (countCandidates g r c : Int)) := by
  by_cases he : ∃ t, t < 81 ∧ g (t / 9) (t % 9) = 0
  · exact findNextCell_of_empty g he
  · exfalso
    apply hne
    have hf : Filled g := by
      intro i hi j hj
      by_contra hz
      exact he ⟨9 * i + j, by omega, by
        have e1 : (9 * i + j) / 9 = i := by omega
        have e2 : (9 * i + j) % 9 = j := by omega
        rw [e1, e2]
        omega⟩
    rw [findNextCell_of_filled g hf]

/-! ## Counting empty cells -/

theorem filter_length_lt {α : Type} (p q : α → Bool) :
    ∀ (l : List α) (x : α), l.Nodup → x ∈ l →
      (∀ y ∈ l, y ≠ x → q y = p y) → p x = true → q x = false →
      (l.filter q).length < (l.filter p).length := by
  intro l
  induction l with
  | nil =>
    intro x _ hx
    simp at hx
  | cons a l ih =>
    intro x hnd hx hpq hpx hqx
    obtain ⟨hal, hl⟩ := List.nodup_cons.mp hnd
    rcases List.mem_cons.mp hx with heq | hx'
    · have heq' : a = x := heq.symm
      subst heq'
      have hfeq : l.filter q = l.filter p :=
        List.filter_congr (fun y hy =>
          hpq y (List.mem_cons_of_mem _ hy) (fun h => hal (h ▸ hy)))
      simp only [List.filter_cons, hpx, hqx]
      simp [hfeq]
    · have hne : a ≠ x := fun h => hal (h ▸ hx')
      have hqa : q a = p a := hpq a (List.mem_cons_self a l) hne
      have hrec := ih x hl hx'
        (fun y hy hyx => hpq y (List.mem_cons_of_mem _ hy) hyx) hpx hqx
      cases hpa : p a
      · simpa [List.filter_cons, hqa, hpa] using hrec
      · simpa [List.filter_cons, hqa, hpa] using hrec

theorem numZeros_le (g : Grid) : numZeros g ≤ 81 := by
  have := List.length_filter_le (fun t => g (t / 9) (t % 9) == 0) (List.range 81)
  simpa [numZeros] using this

theorem numZeros_setCell_lt (g : Grid) (r c d : Nat) (hr : r < 9) (hc : c < 9)
    (hg : g r c = 0) (hd : d ≠ 0) :
    numZeros (setCell g r c d) < numZeros g := by
  unfold numZeros
  refine filter_length_lt _ _ (List.range 81) (9 * r + c) (List.nodup_range 81)
    (List.mem_range.mpr (by omega)) ?_ ?_ ?_
  · intro y hy hyx
    have hy81 := List.mem_range.mp hy
    have hne : ¬(y / 9 = r ∧ y % 9 = c) := by
      rintro ⟨e1, e2⟩
      exact hyx (by omega)
    rw [setCell_ne g r c d _ _ hne]
  · have e1 : (9 * r + c) / 9 = r := by omega
    have e2 : (9 * r + c) % 9 = c := by omega
    rw [e1, e2, hg]
    rfl
  · have e1 : (9 * r + c) / 9 = r := by omega
    have e2 : (9 * r + c) % 9 = c := by omega
    rw [e1, e2, setCell_at]
    simpa using hd

/-! ## The heuristic solver -/

theorem solveEffFuel_restore :
    ∀ fuel g g', solveEffFuel fuel g = (false, g') → g' = g := by
  intro fuel
  induction fuel with
  | zero =>
    intro g g' h
    simp only [solveEffFuel, Prod.mk.injEq, true_and] at h
    exact h.symm
  | succ fuel ih =>
    intro g g' h
    simp only [solveEffFuel] at h
    by_cases h1 : (findNextCell g).1 = -1
    · rw [if_pos h1] at h
      simp at h
    · rw [if_neg h1] at h
      by_cases h2 : (findNextCell g).2.2 = 0
      · rw [if_pos h2] at h
        simp only [Prod.mk.injEq, true_and] at h
        exact h.symm
      · rw [if_neg h2] at h
        obtain ⟨r, c, hr, hc, hg, heq⟩ := findNextCell_branch g h1
        rw [heq] at h
        simp only [Int.toNat_natCast] at h
        exact tryDigits_restore _ (fun h g' => ih h g') g r c hg digits g' h

theorem solveEffFuel_sound :
    ∀ fuel g g', solveEffFuel fuel g = (true, g') → Completion g g' := by
  intro fuel
  induction fuel with
  | zero =>
    intro g g' h
    simp [solveEffFuel] at h
  | succ fuel ih =>
    intro g g' h
    simp only [solveEffFuel] at h
    by_cases h1 : (findNextCell g).1 = -1
    · rw [if_pos h1] at h
      simp only [Prod.mk.injEq, true_and] at h
      subst h
      have hf := filled_of_sentinel g h1
      exact ⟨fun i hi j hj _ => rfl, hf,
        fun i hi j hj hz => absurd hz (hf i hi j hj)⟩
    · rw [if_neg h1] at h
      by_cases h2 : (findNextCell g).2.2 = 0
      · rw [if_pos h2] at h
        simp at h
      · rw [if_neg h2] at h
        obtain ⟨r, c, hr, hc, hg, heq⟩ := findNextCell_branch g h1
        rw [heq] at h
        simp only [Int.toNat_natCast] at h
        obtain ⟨d, hdmem, hdval, hrec⟩ :=
          tryDigits_sound _ (fun h g' => solveEffFuel_restore fuel h g')
            g r c hg digits g' h
        have hd := mem_digits.mp hdmem
        exact completion_step g g' r c d hr hc hg hd.1 hd.2 hdval (ih _ _ hrec)

theorem solveEffFuel_complete :
    ∀ fuel g s, numZeros g < fuel → Completion g s →
      (solveEffFuel fuel g).1 = true := by
  intro fuel
  induction fuel with
  | zero =>
    intro g s hfuel _
    omega
  | succ fuel ih =>
    intro g s hfuel hcomp
    simp only [solveEffFuel]
    by_cases h1 : (findNextCell g).1 = -1
    · rw [if_pos h1]
    · rw [if_neg h1]
      obtain ⟨r, c, hr, hc, hg, heq⟩ := findNextCell_branch g h1
      have hvalid := completion_digit_valid g s r c hr hc hg hcomp
      obtain ⟨hd1, hd9, hnc⟩ := hcomp.2.2 r hr c hc hg
      have hcntpos : 0 < countCandidates g r c :=
        countCandidates_pos g r c (s r c) (mem_digits.mpr ⟨hd1, hd9⟩) hvalid
      by_cases h2 : (findNextCell g).2.2 = 0
      · exfalso
        rw [heq] at h2
        simp at h2
        omega
      · rw [if_neg h2]
        rw [heq]
        simp only [Int.toNat_natCast]
        have hcomp' := completion_setCell g s r c hr hc hg hcomp
        refine tryDigits_complete _ (fun h g' => solveEffFuel_restore fuel h g')
          g r c hg digits (s r c) (mem_digits.mpr ⟨hd1, hd9⟩) hvalid ?_
        refine ih (setCell g r c (s r c)) s ?_ hcomp'
        have := numZeros_setCell_lt g r c (s r c) hr hc hg (by omega)
        omega

/-- The heuristic solver succeeds exactly on the boards that have a
completion. -/
theorem solveEff_true_iff (g : Grid) :
    (solveBoardEfficient g).1 = true ↔ Solvable g := by
  constructor
  · intro h
    rcases hres : solveBoardEfficient g with ⟨b, g'⟩
    rw [hres] at h
    simp only at h
    subst h
    exact ⟨g', solveEffFuel_sound 82 g g' hres⟩
  · rintro ⟨s, hs⟩
    have := numZeros_le g
    exact solveEffFuel_complete 82 g s (by omega) hs

/-! ## Agreement of the two solvers -/

theorem solvers_agree (g : Grid) :
    (solveBoard g 0 0).1 = (solveBoardEfficient g).1 := by
  by_cases h : Solvable g
  · rw [(solveBoard_true_iff g).mpr h, (solveEff_true_iff g).mpr h]
  · have h1 : (solveBoard g 0 0).1 ≠ true :=
      fun ht => h ((solveBoard_true_iff g).mp ht)
    have h2 : (solveBoardEfficient g).1 ≠ true :=
      fun ht => h ((solveEff_true_iff g).mp ht)
    simp only [ne_eq, Bool.not_eq_true] at h1 h2
    rw [h1, h2]

/-! ## From completions to fully valid boards -/

/-- If the given cells of `g` were conflict-free, then a completion of
`g` is conflict-free at every cell, not only at the solver-assigned
ones. -/
theorem completion_allNoConflict (g g' : Grid) (hcf : ConflictFree g)
    (hcomp : Completion g g') :
    ∀ i, i < 9 → ∀ j, j < 9 → noConflictAt g' i j := by
  intro i hi j hj x hx y hy hu hne
  obtain ⟨hext, hfill, hrest⟩ := hcomp
  by_cases hz : g i j = 0
  · exact (hrest i hi j hj hz).2.2 x hx y hy hu hne
  · have hij' : g' i j = g i j := hext i hi j hj hz
    by_cases hzx : g x y = 0
    · have hx' := (hrest x hx y hy hzx).2.2 i hi j hj (sameUnit_symm hu)
        (fun hh => hne ⟨hh.1.symm, hh.2.symm⟩)
      exact hx'.symm
    · have hxy' : g' x y = g x y := hext x hx y hy hzx
      rw [hij', hxy']
      exact hcf i hi j hj hz x hx y hy hu hne

/-- Nine distinct values drawn from 1..9 are a permutation of 1..9. -/
theorem perm_of_nine (l : List Nat) (hlen : l.length = 9) (hnd : l.Nodup)
    (hsub : ∀ x ∈ l, 1 ≤ x ∧ x ≤ 9) : l.Perm (List.range' 1 9) := by
  have hsub' : l ⊆ List.range' 1 9 := by
    intro x hx
    have := hsub x hx
    simp only [List.mem_range'_1]
    omega
  exact (hnd.subperm hsub').perm_of_length_le (by simp [hlen])

/-- The nine cells of one unit of a fully conflict-free board with
digits 1..9 hold a permutation of 1..9. -/
theorem unit_perm (g : Grid) (cell : Nat → Nat × Nat)
    (hin : ∀ t, t < 9 → (cell t).1 < 9 ∧ (cell t).2 < 9)
    (hinj : ∀ t, t < 9 → ∀ u, u < 9 → t ≠ u → cell t ≠ cell u)
    (hunit : ∀ t, t < 9 → ∀ u, u < 9 →
      sameUnit (cell t).1 (cell t).2 (cell u).1 (cell u).2)
    (hnc : ∀ i, i < 9 → ∀ j, j < 9 → noConflictAt g i j)
    (hbound : ∀ i, i < 9 → ∀ j, j < 9 → 1 ≤ g i j ∧ g i j ≤ 9) :
    ((List.range 9).map (fun t => g (cell t).1 (cell t).2)).Perm
      (List.range' 1 9) := by
  refine perm_of_nine _ (by simp) ?_ ?_
  · refine List.Nodup.map_on ?_ (List.nodup_range 9)
    intro t ht u hu hfeq
    rw [List.mem_range] at ht hu
    by_contra htu
    have hcne : cell u ≠ cell t := hinj u hu t ht (fun h => htu h.symm)
    have h1 := hin t ht
    have h2 := hin u hu
    have := hnc (cell t).1 h1.1 (cell t).2 h1.2 (cell u).1 h2.1 (cell u).2 h2.2
      (hunit t ht u hu) (fun hh => hcne (Prod.ext hh.1 hh.2))
    exact this hfeq.symm
  · intro x hx
    rw [List.mem_map] at hx
    obtain ⟨t, ht, hxv⟩ := hx
    rw [List.mem_range] at ht
    have h1 := hin t ht
    rw [← hxv]
    exact hbound (cell t).1 h1.1 (cell t).2 h1.2

/-! ## The generator's deletion step -/

theorem deleteRandomItems_cons (g : Grid) (p : Nat × Nat)
    (ps : List (Nat × Nat)) :
    deleteRandomItems g (p :: ps) = deleteRandomItems (setCell g p.1 p.2 0) ps :=
  rfl

theorem deleteRandomItems_not_mem :
    ∀ (coords : List (Nat × Nat)) (g : Grid) i j, (i, j) ∉ coords →
      deleteRandomItems g coords i j = g i j := by
  intro coords
  induction coords with
  | nil => intro g i j _; rfl
  | cons p ps ih =>
    intro g i j h
    have hne : (i, j) ≠ p := fun hh => h (hh ▸ List.mem_cons_self p ps)
    have hnotin : (i, j) ∉ ps := fun hh => h (List.mem_cons_of_mem _ hh)
    rw [deleteRandomItems_cons, ih _ i j hnotin]
    refine setCell_ne g p.1 p.2 0 i j ?_
    rintro ⟨e1, e2⟩
    exact hne (by rw [e1, e2])

theorem deleteRandomItems_mem :
    ∀ (coords : List (Nat × Nat)) (g : Grid) i j, (i, j) ∈ coords →
      deleteRandomItems g coords i j = 0 := by
  intro coords
  induction coords with
  | nil => intro g i j h; simp at h
  | cons p ps ih =>
    intro g i j h
    by_cases hmem : (i, j) ∈ ps
    · rw [deleteRandomItems_cons]
      exact ih _ i j hmem
    · have heq : (i, j) = p := by
        rcases List.mem_cons.mp h with h' | h'
        · exact h'
        · exact absurd h' hmem
      rw [deleteRandomItems_cons, deleteRandomItems_not_mem ps _ i j hmem, ← heq]
      exact setCell_at g i j 0

/-- A board every in-range cell of which is empty is completed by any
completion of the empty board. -/
theorem completion_of_allEmpty (G s : Grid)
    (hG : ∀ i, i < 9 → ∀ j, j < 9 → G i j = 0)
    (hs : Completion emptyGrid s) : Completion G s := by
  obtain ⟨_, hfill, hrest⟩ := hs
  exact ⟨fun i hi j hj hnz => absurd (hG i hi j hj) hnz, hfill,
    fun i hi j hj _ => hrest i hi j hj rfl⟩

/-- When some empty cell has at most one candidate, `findNextCell`
returns the first such cell in row-major order, with its count. -/
theorem findNextCell_of_low (g : Grid)
    (hlow : ∃ t, t < 81 ∧ g (t / 9) (t % 9) = 0 ∧
      countCandidates g (t / 9) (t % 9) ≤ 1) :
    ∃ r c, r < 9 ∧ c < 9 ∧ g r c = 0 ∧ countCandidates g r c ≤ 1 ∧
      (∀ i, i < 9 → ∀ j, j < 9 → g i j = 0 → countCandidates g i j ≤ 1 →
        9 * r + c ≤ 9 * i + j) ∧
      findNextCell g = ((r : Int), (c : Int), (countCandidates g r c : Int)) := by
  obtain ⟨ht81, htz, htcnt⟩ := Nat.find_spec hlow
  refine ⟨Nat.find hlow / 9, Nat.find hlow % 9, by omega, by omega, htz, htcnt,
    ?_, ?_⟩
  · intro i hi j hj hz hcnt
    have e1 : (9 * i + j) / 9 = i := by omega
    have e2 : (9 * i + j) % 9 = j := by omega
    have hP : 9 * i + j < 81 ∧ g ((9 * i + j) / 9) ((9 * i + j) % 9) = 0 ∧
        countCandidates g ((9 * i + j) / 9) ((9 * i + j) % 9) ≤ 1 := by
      rw [e1, e2]
      exact ⟨by omega, hz, hcnt⟩
    have := Nat.find_min' hlow hP
    omega
  · unfold findNextCell
    refine findAux_low g 81 0 (-1, -1, INT_MAX) (Nat.find hlow)
      (by norm_num [INT_MAX]) (by omega) (by omega) htz htcnt ?_
    intro t ht1 ht2 htz'
    have hnP := Nat.find_min hlow ht2
    by_contra hcnt'
    exact hnP ⟨by omega, htz', by omega⟩

/-! ## The claims -/

set_option maxRecDepth 100000

/-- Claim C1: for every 9x9 board `g`, row `r` and column `c` in 0..8
and digit `d` in 1..9, `isValid g r c d` returns true iff `d` appears
nowhere else in row `r`, nowhere else in column `c`, and nowhere else in
the 3x3 box containing `(r, c)` — equivalently, it returns false iff `d`
already occurs elsewhere in that row, column, or box. -/
theorem claim_C1 (g : Grid) (r c d : Nat) (hr : r < 9) (hc : c < 9)
    (hd1 : 1 ≤ d) (hd9 : d ≤ 9) :
    isValid g r c d = true ↔
      ((∀ j, j < 9 → j ≠ c → g r j ≠ d) ∧
       (∀ i, i < 9 → i ≠ r → g i c ≠ d) ∧
       (∀ i, i < 9 → ∀ j, j < 9 → i / 3 = r / 3 → j / 3 = c / 3 →
         ¬(i = r ∧ j = c) → g i j ≠ d)) := by
  rw [isValid_iff g r c d hr hc]
  constructor
  · intro hv
    refine ⟨fun j hj hjc => hv r hr j hj sameUnit_row (fun hh => hjc hh.2),
            fun i hi hir => hv i hi c hc sameUnit_col (fun hh => hir hh.1),
            fun i hi j hj hbi hbj hne =>
              hv i hi j hj (Or.inr (Or.inr ⟨hbi, hbj⟩)) hne⟩
  · rintro ⟨hrow, hcol, hbox⟩ i hi j hj hu hne
    rcases hu with hu | hu | hu
    · have hjc : j ≠ c := fun e => hne ⟨hu, e⟩
      rw [hu]
      exact hrow j hj hjc
    · have hir : i ≠ r := fun e => hne ⟨e, hu⟩
      rw [hu]
      exact hcol i hi hir
    · exact hbox i hi j hj hu.1 hu.2 hne

/-- Witness for C1: the spec's concrete scenario — on the board with
cells (0,0) and (0,1) both 5, placing 5 at (0,2) is reported invalid,
and the characterization of C1 holds at that input. -/
theorem claim_C1_witness :
    (isValid g55 0 2 5 = true ↔
      ((∀ j, j < 9 → j ≠ 2 → g55 0 j ≠ 5) ∧
       (∀ i, i < 9 → i ≠ 0 → g55 i 2 ≠ 5) ∧
       (∀ i, i < 9 → ∀ j, j < 9 → i / 3 = 0 / 3 → j / 3 = 2 / 3 →
         ¬(i = 0 ∧ j = 2) → g55 i j ≠ 5))) ∧
    isValid g55 0 2 5 = false :=
  ⟨claim_C1 g55 0 2 5 (by decide) (by decide) (by decide) (by decide),
   by decide⟩

/-- Claim C4: on every input board the plain solver (from the origin)
and the heuristic solver return the same boolean — they agree on
solvability — even though the heuristic solver chooses cells in
constraint-driven rather than positional order. -/
theorem claim_C4 (g : Grid) :
    (solveBoard g 0 0).1 = (solveBoardEfficient g).1 :=
  solvers_agree g

/-- Claim C10: on a board with no empty cells `findNextCell` returns
exactly the tuple (-1, -1, INT_MAX); the sentinel count is the fixed
value INT_MAX = 2^31 - 1, strictly larger than any real candidate count
(which is at most 9). -/
theorem claim_C10 :
    (∀ g : Grid, Filled g → findNextCell g = (-1, -1, INT_MAX)) ∧
    INT_MAX = 2147483647 ∧
    (∀ g : Grid, ∀ r c, countCandidates g r c ≤ 9 ∧
      (countCandidates g r c : Int) < INT_MAX) := by
  refine ⟨findNextCell_of_filled, rfl, ?_⟩
  intro g r c
  have := countCandidates_le_nine g r c
  refine ⟨this, ?_⟩
  simp only [INT_MAX]
  omega

/-- Witness for C10: the all-sevens board is full, and `findNextCell`
returns the sentinel on it. -/
theorem claim_C10_witness :
    Filled sevens ∧ findNextCell sevens = (-1, -1, INT_MAX) :=
  ⟨by decide, claim_C10.1 sevens (by decide)⟩

/-- Counterexample to C6 as stated: the board `gX` contains an empty
cell with zero valid digits (cell (0,8)), yet `findNextCell` does not
return a cell with count 0 — the earlier cell (0,0) with exactly one
candidate is returned first by the count == 1 early exit. -/
theorem claim_C6_counterexample :
    gX 0 8 = 0 ∧ countCandidates gX 0 8 = 0 ∧
    findNextCell gX = (0, 0, 1) ∧ (findNextCell gX).2.2 ≠ 0 := by
  decide

/-- Claim C6 (amended): case analysis of `findNextCell`.
(i) On a board with at least one empty cell where every empty cell
admits at least one valid digit, it returns an empty cell with its
count, which is at least 1.
(ii) On a board containing an empty cell with zero valid digits, it
returns an empty cell with count at most 1 — and a zero-candidate cell
with count 0 provided no empty cell has exactly one candidate (this
proviso is what the counterexample forces: a count-1 cell met earlier in
the scan is returned instead).
(iii) On a board with no empty cells, it returns the sentinel
(-1, -1, INT_MAX). -/
theorem claim_C6_amended :
    (∀ g : Grid, (∃ t, t < 81 ∧ g (t / 9) (t % 9) = 0) →
      (∀ i, i < 9 → ∀ j, j < 9 → g i j = 0 → 1 ≤ countCandidates g i j) →
      ∃ r c, r < 9 ∧ c < 9 ∧ g r c = 0 ∧ 1 ≤ countCandidates g r c ∧
        findNextCell g = ((r : Int), (c : Int), (countCandidates g r c : Int))) ∧
    (∀ g : Grid,
      (∃ i, i < 9 ∧ ∃ j, j < 9 ∧ g i j = 0 ∧ countCandidates g i j = 0) →
      (∃ r c, r < 9 ∧ c < 9 ∧ g r c = 0 ∧ countCandidates g r c ≤ 1 ∧
        findNextCell g = ((r : Int), (c : Int), (countCandidates g r c : Int))) ∧
      ((∀ i, i < 9 → ∀ j, j < 9 → g i j = 0 → countCandidates g i j ≠ 1) →
        ∃ r c, r < 9 ∧ c < 9 ∧ g r c = 0 ∧ countCandidates g r c = 0 ∧
          findNextCell g = ((r : Int), (c : Int), (0 : Int)))) ∧
    (∀ g : Grid, Filled g → findNextCell g = (-1, -1, INT_MAX)) := by
  refine ⟨?_, ?_, findNextCell_of_filled⟩
  · intro g he hpos
    obtain ⟨r, c, hr, hc, hz, heq⟩ := findNextCell_of_empty g he
    exact ⟨r, c, hr, hc, hz, hpos r hr c hc hz, heq⟩
  · intro g hzero
    obtain ⟨i, hi, j, hj, hz, hcnt⟩ := hzero
    have hlow : ∃ t, t < 81 ∧ g (t / 9) (t % 9) = 0 ∧
        countCandidates g (t / 9) (t % 9) ≤ 1 := by
      refine ⟨9 * i + j, by omega, ?_⟩
      have e1 : (9 * i + j) / 9 = i := by omega
      have e2 : (9 * i + j) % 9 = j := by omega
      rw [e1, e2]
      exact ⟨hz, by omega⟩
    obtain ⟨r, c, hr, hc, hzr, hcr, _, heq⟩ := findNextCell_of_low g hlow
    refine ⟨⟨r, c, hr, hc, hzr, hcr, heq⟩, ?_⟩
    intro hno1
    have hne1 := hno1 r hr c hc hzr
    have hc0 : countCandidates g r c = 0 := by omega
    refine ⟨r, c, hr, hc, hzr, hc0, ?_⟩
    rw [heq, hc0]
    simp

/-- Witness for C6 (amended): case (i) on the empty board (returns cell
(0,0) with count 9), case (ii) on the unsolvable board `gU` (returns the
zero-candidate cell (0,0) with count 0), case (iii) on the all-sevens
board. -/
theorem claim_C6_witness :
    (∃ r c, r < 9 ∧ c < 9 ∧ emptyGrid r c = 0 ∧
      1 ≤ countCandidates emptyGrid r c ∧
      findNextCell emptyGrid =
        ((r : Int), (c : Int), (countCandidates emptyGrid r c : Int))) ∧
    (∃ r c, r < 9 ∧ c < 9 ∧ gU r c = 0 ∧ countCandidates gU r c = 0 ∧
      findNextCell gU = ((r : Int), (c : Int), (0 : Int))) ∧
    findNextCell sevens = (-1, -1, INT_MAX) :=
  ⟨claim_C6_amended.1 emptyGrid ⟨0, by decide⟩ (by decide),
   (claim_C6_amended.2.1 gU ⟨0, by decide, 0, by decide, by decide⟩).2 (by decide),
   claim_C6_amended.2.2 sevens (by decide)⟩

/-- Counterexample to C7 as stated: on the board `gX` the returned
cell's candidate count (1, from the count == 1 early exit at cell
(0,0)) is not the minimum count over all empty cells — cell (0,8) is
empty with count 0. -/
theorem claim_C7_counterexample :
    findNextCell gX = (0, 0, 1) ∧ gX 0 8 = 0 ∧ countCandidates gX 0 8 = 0 ∧
    ¬(∀ t, t < 81 → gX (t / 9) (t % 9) = 0 →
      (findNextCell gX).2.2 ≤ (countCandidates gX (t / 9) (t % 9) : Int)) := by
  decide

/-- Claim C7 (amended): writing cell `(i, j)` as its row-major index
`t = 9 * i + j`, `findNextCell` returns
(a) the first cell in scan order whose candidate count is at most 1
(the early exits), when such a cell exists — this is what the
counterexample forces: such a cell is returned even when a later cell
has a strictly smaller count; and otherwise
(b) the first cell in scan order whose count equals the minimum
candidate count over all empty cells (ties keep the earliest cell). -/
theorem claim_C7_amended :
    (∀ g : Grid, ∀ t₀, t₀ < 81 → g (t₀ / 9) (t₀ % 9) = 0 →
      countCandidates g (t₀ / 9) (t₀ % 9) ≤ 1 →
      (∀ t, t < t₀ → g (t / 9) (t % 9) = 0 →
        2 ≤ countCandidates g (t / 9) (t % 9)) →
      findNextCell g = (((t₀ / 9 : Nat) : Int), ((t₀ % 9 : Nat) : Int),
        (countCandidates g (t₀ / 9) (t₀ % 9) : Int))) ∧
    (∀ g : Grid, (∃ t, t < 81 ∧ g (t / 9) (t % 9) = 0) →
      (∀ t, t < 81 → g (t / 9) (t % 9) = 0 →
        2 ≤ countCandidates g (t / 9) (t % 9)) →
      ∃ t₀, t₀ < 81 ∧ g (t₀ / 9) (t₀ % 9) = 0 ∧
        findNextCell g = (((t₀ / 9 : Nat) : Int), ((t₀ % 9 : Nat) : Int),
          (countCandidates g (t₀ / 9) (t₀ % 9) : Int)) ∧
        (∀ t, t < 81 → g (t / 9) (t % 9) = 0 →
          countCandidates g (t₀ / 9) (t₀ % 9) ≤ countCandidates g (t / 9) (t % 9)) ∧
        (∀ t, t < t₀ → g (t / 9) (t % 9) = 0 →
          countCandidates g (t₀ / 9) (t₀ % 9) < countCandidates g (t / 9) (t % 9))) := by
  constructor
  · intro g t₀ ht81 htz htcnt hfirst
    unfold findNextCell
    exact findAux_low g 81 0 (-1, -1, INT_MAX) t₀ (by norm_num [INT_MAX])
      (by omega) (by omega) htz htcnt (fun t ht1 ht2 htz' => hfirst t ht2 htz')
  · intro g he hnolow
    obtain ⟨t₁, ht81, htz⟩ := he
    rcases findAux_min g 81 0 (-1, -1, INT_MAX) (by norm_num [INT_MAX])
        (fun t ht1 ht2 htz' => hnolow t (by omega) htz') with
      ⟨heq, hbound⟩ | ⟨t₀, ht0k, ht0m, ht0z, heq, ht0lt, hmin, hfst⟩
    · exfalso
      have hb := hbound t₁ (by omega) (by omega) htz
      have hle := countCandidates_le_nine g (t₁ / 9) (t₁ % 9)
      simp only [INT_MAX] at hb
      omega
    · exact ⟨t₀, by omega, ht0z, heq,
        fun t ht1 ht2 => hmin t (by omega) (by omega) ht2,
        fun t ht1 ht2 => hfst t (by omega) ht1 ht2⟩

/-- Witness for C7 (amended): on `gU` the first cell with count at most
1 is (0,0) (index 0, count 0) and is returned; on the empty board no
cell has count below 2, and the first minimum-count cell (0,0) with
count 9 is returned. -/
theorem claim_C7_witness :
    (findNextCell gU = (((0 / 9 : Nat) : Int), ((0 % 9 : Nat) : Int),
      (countCandidates gU (0 / 9) (0 % 9) : Int))) ∧
    (∃ t₀, t₀ < 81 ∧ emptyGrid (t₀ / 9) (t₀ % 9) = 0 ∧
      findNextCell emptyGrid = (((t₀ / 9 : Nat) : Int), ((t₀ % 9 : Nat) : Int),
        (countCandidates emptyGrid (t₀ / 9) (t₀ % 9) : Int)) ∧
      (∀ t, t < 81 → emptyGrid (t / 9) (t % 9) = 0 →
        countCandidates emptyGrid (t₀ / 9) (t₀ % 9) ≤
          countCandidates emptyGrid (t / 9) (t % 9)) ∧
      (∀ t, t < t₀ → emptyGrid (t / 9) (t % 9) = 0 →
        countCandidates emptyGrid (t₀ / 9) (t₀ % 9) <
          countCandidates emptyGrid (t / 9) (t % 9))) :=
  ⟨claim_C7_amended.1 gU 0 (by decide) (by decide) (by decide)
      (fun t ht _ => absurd ht (by omega)),
   claim_C7_amended.2 emptyGrid ⟨0, by decide⟩ (by decide)⟩

/-- The board `gU` is unsolvable: cell (0,0) is empty, its row already
holds 1..8 and its column holds 9, so no digit 1..9 can complete it. -/
theorem gU_unsolvable : ¬ Solvable gU := by
  rintro ⟨s, hext, hfill, hrest⟩
  obtain ⟨h1, h9, hnc⟩ := hrest 0 (by omega) 0 (by omega) (by decide)
  have e1 : s 0 1 = 1 := by
    have h := hext 0 (by omega) 1 (by omega) (by decide)
    rwa [show gU 0 1 = 1 from by decide] at h
  have e2 : s 0 2 = 2 := by
    have h := hext 0 (by omega) 2 (by omega) (by decide)
    rwa [show gU 0 2 = 2 from by decide] at h
  have e3 : s 0 3 = 3 := by
    have h := hext 0 (by omega) 3 (by omega) (by decide)
    rwa [show gU 0 3 = 3 from by decide] at h
  have e4 : s 0 4 = 4 := by
    have h := hext 0 (by omega) 4 (by omega) (by decide)
    rwa [show gU 0 4 = 4 from by decide] at h
  have e5 : s 0 5 = 5 := by
    have h := hext 0 (by omega) 5 (by omega) (by decide)
    rwa [show gU 0 5 = 5 from by decide] at h
  have e6 : s 0 6 = 6 := by
    have h := hext 0 (by omega) 6 (by omega) (by decide)
    rwa [show gU 0 6 = 6 from by decide] at h
  have e7 : s 0 7 = 7 := by
    have h := hext 0 (by omega) 7 (by omega) (by decide)
    rwa [show gU 0 7 = 7 from by decide] at h
  have e8 : s 0 8 = 8 := by
    have h := hext 0 (by omega) 8 (by omega) (by decide)
    rwa [show gU 0 8 = 8 from by decide] at h
  have e9 : s 1 0 = 9 := by
    have h := hext 1 (by omega) 0 (by omega) (by decide)
    rwa [show gU 1 0 = 9 from by decide] at h
  have n1 : s 0 1 ≠ s 0 0 := hnc 0 (by omega) 1 (by omega) (Or.inl rfl) (by omega)
  have n2 : s 0 2 ≠ s 0 0 := hnc 0 (by omega) 2 (by omega) (Or.inl rfl) (by omega)
  have n3 : s 0 3 ≠ s 0 0 := hnc 0 (by omega) 3 (by omega) (Or.inl rfl) (by omega)
  have n4 : s 0 4 ≠ s 0 0 := hnc 0 (by omega) 4 (by omega) (Or.inl rfl) (by omega)
  have n5 : s 0 5 ≠ s 0 0 := hnc 0 (by omega) 5 (by omega) (Or.inl rfl) (by omega)
  have n6 : s 0 6 ≠ s 0 0 := hnc 0 (by omega) 6 (by omega) (Or.inl rfl) (by omega)
  have n7 : s 0 7 ≠ s 0 0 := hnc 0 (by omega) 7 (by omega) (Or.inl rfl) (by omega)
  have n8 : s 0 8 ≠ s 0 0 := hnc 0 (by omega) 8 (by omega) (Or.inl rfl) (by omega)
  have n9 : s 1 0 ≠ s 0 0 :=
    hnc 1 (by omega) 0 (by omega) (Or.inr (Or.inl rfl)) (by omega)
  omega

/-- Claim C3: on every board that has no completion as currently
constrained, both solvers return false, and on that false return the
board is exactly the one given — every trial assignment made during the
search has been undone (each visited cell is back at its pre-call value
or 0). -/
theorem claim_C3 (g : Grid) (h : ¬ Solvable g) :
    solveBoard g 0 0 = (false, g) ∧ solveBoardEfficient g = (false, g) := by
  constructor
  · rcases hres : solveBoard g 0 0 with ⟨b, g'⟩
    cases b
    · have hg := solveFuel_restore 100 g 0 0 g' hres
      rw [hg]
    · exact absurd ((solveBoard_true_iff g).mp (by rw [hres])) h
  · rcases hres : solveBoardEfficient g with ⟨b, g'⟩
    cases b
    · have hg := solveEffFuel_restore 82 g g' hres
      rw [hg]
    · exact absurd ((solveEff_true_iff g).mp (by rw [hres])) h

/-- Witness for C3 at the unsolvable board `gU` (with the two trailing
facts of the claim instantiated): both solvers return false and hand
back the board unchanged. -/
theorem claim_C3_witness :
    solveBoard gU 0 0 = (false, gU) ∧ solveBoardEfficient gU = (false, gU) :=
  claim_C3 gU gU_unsolvable

/-- Claim C2: every input board whose given cells are conflict-free and
which admits a completion is solved by both solvers: they return true
and leave the board fully assigned with no row, column, or box
conflicts.  In particular, on the all-zero board `solveBoard` returns
true and every row, column, and 3x3 box of the resulting board is a
permutation of 1..9. -/
theorem claim_C2 :
    (∀ g, ConflictFree g → Solvable g →
      ((solveBoard g 0 0).1 = true ∧ Filled (solveBoard g 0 0).2 ∧
        (∀ i, i < 9 → ∀ j, j < 9 → noConflictAt (solveBoard g 0 0).2 i j)) ∧
      ((solveBoardEfficient g).1 = true ∧ Filled (solveBoardEfficient g).2 ∧
        (∀ i, i < 9 → ∀ j, j < 9 → noConflictAt (solveBoardEfficient g).2 i j))) ∧
    ((solveBoard emptyGrid 0 0).1 = true ∧
      ∀ u, u < 9 →
        (rowList (solveBoard emptyGrid 0 0).2 u).Perm (List.range' 1 9) ∧
        (colList (solveBoard emptyGrid 0 0).2 u).Perm (List.range' 1 9) ∧
        (boxList (solveBoard emptyGrid 0 0).2 u).Perm (List.range' 1 9)) := by
  have main : ∀ g, ConflictFree g → Solvable g →
      ((solveBoard g 0 0).1 = true ∧ Filled (solveBoard g 0 0).2 ∧
        (∀ i, i < 9 → ∀ j, j < 9 → noConflictAt (solveBoard g 0 0).2 i j)) ∧
      ((solveBoardEfficient g).1 = true ∧ Filled (solveBoardEfficient g).2 ∧
        (∀ i, i < 9 → ∀ j, j < 9 → noConflictAt (solveBoardEfficient g).2 i j)) := by
    intro g hcf hsol
    constructor
    · have hb := (solveBoard_true_iff g).mpr hsol
      rcases hres : solveBoard g 0 0 with ⟨b, g'⟩
      rw [hres] at hb
      simp only at hb
      subst hb
      have hcomp := solveFuel_sound 100 g 0 0 g' hres
        (fun i hi j hj hcond => absurd hcond (by omega))
      exact ⟨rfl, hcomp.2.1, completion_allNoConflict g g' hcf hcomp⟩
    · have hb := (solveEff_true_iff g).mpr hsol
      rcases hres : solveBoardEfficient g with ⟨b, g'⟩
      rw [hres] at hb
      simp only at hb
      subst hb
      have hcomp := solveEffFuel_sound 82 g g' hres
      exact ⟨rfl, hcomp.2.1, completion_allNoConflict g g' hcf hcomp⟩
  refine ⟨main, ?_⟩
  have hcfE : ConflictFree emptyGrid := fun r hr c hc h => absurd rfl h
  have hsolE : Solvable emptyGrid := ⟨shiftSol, by decide⟩
  have hb := (solveBoard_true_iff emptyGrid).mpr hsolE
  rcases hres : solveBoard emptyGrid 0 0 with ⟨b, g'⟩
  rw [hres] at hb
  simp only at hb
  subst hb
  have hcomp := solveFuel_sound 100 emptyGrid 0 0 g' hres
    (fun i hi j hj hcond => absurd hcond (by omega))
  have hnc := completion_allNoConflict emptyGrid g' hcfE hcomp
  have hbounds : ∀ i, i < 9 → ∀ j, j < 9 → 1 ≤ g' i j ∧ g' i j ≤ 9 :=
    fun i hi j hj => ⟨(hcomp.2.2 i hi j hj rfl).1, (hcomp.2.2 i hi j hj rfl).2.1⟩
  refine ⟨rfl, ?_⟩
  intro u hu
  refine ⟨?_, ?_, ?_⟩
  · have := unit_perm g' (fun t => (u, t))
      (fun t ht => ⟨hu, ht⟩)
      (fun t ht v hv htv h => htv (congrArg Prod.snd h))
      (fun t ht v hv => Or.inl rfl)
      hnc hbounds
    simpa [rowList] using this
  · have := unit_perm g' (fun t => (t, u))
      (fun t ht => ⟨ht, hu⟩)
      (fun t ht v hv htv h => htv (congrArg Prod.fst h))
      (fun t ht v hv => Or.inr (Or.inl rfl))
      hnc hbounds
    simpa [colList] using this
  · have := unit_perm g' (fun t => (3 * (u / 3) + t / 3, 3 * (u % 3) + t % 3))
      (fun t ht => ⟨by show 3 * (u / 3) + t / 3 < 9; omega,
                    by show 3 * (u % 3) + t % 3 < 9; omega⟩)
      (fun t ht v hv htv h => htv (by
        have h1 := congrArg Prod.fst h
        have h2 := congrArg Prod.snd h
        simp only at h1 h2
        omega))
      (fun t ht v hv => Or.inr (Or.inr
        ⟨by show (3 * (u / 3) + v / 3) / 3 = (3 * (u / 3) + t / 3) / 3; omega,
         by show (3 * (u % 3) + v % 3) / 3 = (3 * (u % 3) + t % 3) / 3; omega⟩))
      hnc hbounds
    simpa [boxList] using this

/-- Witness for C2 at the all-zero board: it is conflict-free, solvable
(the shift board completes it), and both solvers succeed on it leaving a
fully assigned conflict-free board. -/
theorem claim_C2_witness :
    ConflictFree emptyGrid ∧ Solvable emptyGrid ∧
      (((solveBoard emptyGrid 0 0).1 = true ∧
        Filled (solveBoard emptyGrid 0 0).2 ∧
        (∀ i, i < 9 → ∀ j, j < 9 →
          noConflictAt (solveBoard emptyGrid 0 0).2 i j)) ∧
      ((solveBoardEfficient emptyGrid).1 = true ∧
        Filled (solveBoardEfficient emptyGrid).2 ∧
        (∀ i, i < 9 → ∀ j, j < 9 →
          noConflictAt (solveBoardEfficient emptyGrid).2 i j))) :=
  ⟨by decide, ⟨shiftSol, by decide⟩,
   claim_C2.1 emptyGrid (by decide) ⟨shiftSol, by decide⟩⟩

/-- Claim C9: the generator does not verify uniqueness of solution.
For the outcome whose deletion list clears all 81 cells (n = 81, a
valid deduplicated outcome: 81 distinct in-range cells), the returned
board admits two different completions. -/
theorem claim_C9 :
    coords81.length = 81 ∧ coords81.Nodup ∧
    (∀ p ∈ coords81, p.1 < 9 ∧ p.2 < 9) ∧
    (∃ s t : Grid,
      Completion (generateBoard digits digits digits coords81) s ∧
      Completion (generateBoard digits digits digits coords81) t ∧
      s 0 0 ≠ t 0 0) := by
  have hzero : ∀ i, i < 9 → ∀ j, j < 9 →
      generateBoard digits digits digits coords81 i j = 0 := by
    intro i hi j hj
    refine deleteRandomItems_mem coords81 _ i j ?_
    simp only [coords81, List.mem_map]
    refine ⟨9 * i + j, List.mem_range.mpr (by omega), ?_⟩
    have e1 : (9 * i + j) / 9 = i := by omega
    have e2 : (9 * i + j) % 9 = j := by omega
    rw [e1, e2]
  refine ⟨by decide, by decide, by decide, shiftSol, shiftSol2,
    completion_of_allEmpty _ _ hzero (by decide),
    completion_of_allEmpty _ _ hzero (by decide),
    by decide⟩

/-! ## The generator pipeline, conditional on the seed being completable

The unconditional round-trip and cell-count claims about
`generateBoard` need the combinatorial fact that three independently
shuffled diagonal boxes always admit a completion; that fact is not
proved here.  Everything downstream of it is: the seeded board is
conflict-free, and whenever it admits a completion the generated board
is solvable and has exactly as many empty cells as the deletion list. -/

theorem nodup_getD_ne (l : List Nat) (hl : l.length = 9) (hnd : l.Nodup)
    {i j : Nat} (hi : i < 9) (hj : j < 9) (hij : i ≠ j) :
    l.getD i 0 ≠ l.getD j 0 := by
  rw [List.getD_eq_getElem l 0 (by omega : i < l.length),
    List.getD_eq_getElem l 0 (by omega : j < l.length)]
  intro h
  exact hij ((hnd.getElem_inj_iff).mp h)

theorem getD_zero_or_mem (l : List Nat) (n : Nat) :
    l.getD n 0 = 0 ∨ l.getD n 0 ∈ l := by
  by_cases h : n < l.length
  · rw [List.getD_eq_getElem l 0 h]
    exact Or.inr (List.getElem_mem h)
  · rw [List.getD_eq_default l 0 (by omega : l.length ≤ n)]
    exact Or.inl rfl

theorem diagSeeded0 (p0 p1 p2 : List Nat) (i j : Nat) (hi : i < 3)
    (hj : j < 3) : diagSeeded p0 p1 p2 i j = p0.getD (3 * i + j) 0 := by
  simp only [diagSeeded]
  rw [if_pos ⟨hi, hj⟩]

theorem diagSeeded1 (p0 p1 p2 : List Nat) (i j : Nat) (hi : 3 ≤ i)
    (hi' : i < 6) (hj : 3 ≤ j) (hj' : j < 6) :
    diagSeeded p0 p1 p2 i j = p1.getD (3 * (i - 3) + (j - 3)) 0 := by
  simp only [diagSeeded]
  rw [if_neg (by omega), if_pos ⟨hi, hi', hj, hj'⟩]

theorem diagSeeded2 (p0 p1 p2 : List Nat) (i j : Nat) (hi : 6 ≤ i)
    (hi' : i < 9) (hj : 6 ≤ j) (hj' : j < 9) :
    diagSeeded p0 p1 p2 i j = p2.getD (3 * (i - 6) + (j - 6)) 0 := by
  simp only [diagSeeded]
  rw [if_neg (by omega), if_neg (by omega), if_pos ⟨hi, hi', hj, hj'⟩]

theorem diagSeeded_off (p0 p1 p2 : List Nat) (i j : Nat)
    (h : i / 3 ≠ j / 3) : diagSeeded p0 p1 p2 i j = 0 := by
  simp only [diagSeeded]
  rw [if_neg (by omega), if_neg (by omega), if_neg (by omega)]

/-- Every nonzero cell of the seeded board carries one of the shuffled
vectors' values. -/
theorem diagSeeded_bounds (p0 p1 p2 : List Nat)
    (hp0 : ∀ v ∈ p0, 1 ≤ v ∧ v ≤ 9) (hp1 : ∀ v ∈ p1, 1 ≤ v ∧ v ≤ 9)
    (hp2 : ∀ v ∈ p2, 1 ≤ v ∧ v ≤ 9) (i j : Nat)
    (hnz : diagSeeded p0 p1 p2 i j ≠ 0) :
    1 ≤ diagSeeded p0 p1 p2 i j ∧ diagSeeded p0 p1 p2 i j ≤ 9 := by
  have hband : i / 3 = j / 3 := by
    by_contra hco
    exact hnz (diagSeeded_off p0 p1 p2 i j hco)
  by_cases hin : i < 9
  · rcases (by omega : i / 3 = 0 ∨ i / 3 = 1 ∨ i / 3 = 2) with h | h | h
    · rw [diagSeeded0 p0 p1 p2 i j (by omega) (by omega)] at hnz ⊢
      rcases getD_zero_or_mem p0 (3 * i + j) with h0 | hm
      · exact absurd h0 hnz
      · exact hp0 _ hm
    · rw [diagSeeded1 p0 p1 p2 i j (by omega) (by omega) (by omega) (by omega)]
        at hnz ⊢
      rcases getD_zero_or_mem p1 (3 * (i - 3) + (j - 3)) with h0 | hm
      · exact absurd h0 hnz
      · exact hp1 _ hm
    · rw [diagSeeded2 p0 p1 p2 i j (by omega) (by omega) (by omega) (by omega)]
        at hnz ⊢
      rcases getD_zero_or_mem p2 (3 * (i - 6) + (j - 6)) with h0 | hm
      · exact absurd h0 hnz
      · exact hp2 _ hm
  · exfalso
    apply hnz
    simp only [diagSeeded]
    rw [if_neg (by omega), if_neg (by omega), if_neg (by omega)]

/-- The three diagonal boxes seed a conflict-free board: the boxes
pairwise share no row, column, or box, and within one box the shuffled
vector has no repeats. -/
theorem diagSeeded_conflictFree (p0 p1 p2 : List Nat)
    (l0 : p0.length = 9) (l1 : p1.length = 9) (l2 : p2.length = 9)
    (n0 : p0.Nodup) (n1 : p1.Nodup) (n2 : p2.Nodup) :
    ConflictFree (diagSeeded p0 p1 p2) := by
  intro r hr c hc hnz x hx y hy hu hne heq
  have hb1 : r / 3 = c / 3 := by
    by_contra hco
    exact hnz (diagSeeded_off p0 p1 p2 r c hco)
  have hnzx : diagSeeded p0 p1 p2 x y ≠ 0 := by
    rw [heq]
    exact hnz
  have hb2 : x / 3 = y / 3 := by
    by_contra hco
    exact hnzx (diagSeeded_off p0 p1 p2 x y hco)
  have hbb : x / 3 = r / 3 := by
    rcases hu with h | h | h
    · omega
    · omega
    · omega
  rcases (by omega : r / 3 = 0 ∨ r / 3 = 1 ∨ r / 3 = 2) with h | h | h
  · rw [diagSeeded0 p0 p1 p2 r c (by omega) (by omega),
      diagSeeded0 p0 p1 p2 x y (by omega) (by omega)] at heq
    exact nodup_getD_ne p0 l0 n0 (by omega) (by omega) (by omega) heq
  · rw [diagSeeded1 p0 p1 p2 r c (by omega) (by omega) (by omega) (by omega),
      diagSeeded1 p0 p1 p2 x y (by omega) (by omega) (by omega) (by omega)] at heq
    exact nodup_getD_ne p1 l1 n1 (by omega) (by omega) (by omega) heq
  · rw [diagSeeded2 p0 p1 p2 r c (by omega) (by omega) (by omega) (by omega),
      diagSeeded2 p0 p1 p2 x y (by omega) (by omega) (by omega) (by omega)] at heq
    exact nodup_getD_ne p2 l2 n2 (by omega) (by omega) (by omega) heq

/-- If the seeded board admits a completion, the board handed to the
deletion step is a complete valid solution, and the generated board is
completed by it. -/
theorem generateBoard_completion (p0 p1 p2 : List Nat)
    (hp0 : p0.Perm (List.range' 1 9)) (hp1 : p1.Perm (List.range' 1 9))
    (hp2 : p2.Perm (List.range' 1 9)) (coords : List (Nat × Nat))
    (hsol : Solvable (diagSeeded p0 p1 p2)) :
    Completion (generateBoard p0 p1 p2 coords)
      (solveBoard (diagSeeded p0 p1 p2) 0 0).2 := by
  have hmem : ∀ (p : List Nat), p.Perm (List.range' 1 9) →
      ∀ v ∈ p, 1 ≤ v ∧ v ≤ 9 := by
    intro p hp v hv
    have := hp.mem_iff.mp hv
    simp only [List.mem_range'_1] at this
    omega
  have hnd : ∀ (p : List Nat), p.Perm (List.range' 1 9) → p.Nodup := by
    intro p hp
    exact (hp.nodup_iff).mpr (by decide)
  have hlen : ∀ (p : List Nat), p.Perm (List.range' 1 9) → p.length = 9 := by
    intro p hp
    have := hp.length_eq
    simpa using this
  set g0 := diagSeeded p0 p1 p2 with hg0
  have hb := (solveBoard_true_iff g0).mpr hsol
  rcases hres : solveBoard g0 0 0 with ⟨b, s⟩
  rw [hres] at hb
  simp only at hb
  subst hb
  have hcomp : Completion g0 s := solveFuel_sound 100 g0 0 0 s hres
    (fun i hi j hj hcond => absurd hcond (by omega))
  have hcf : ConflictFree g0 := diagSeeded_conflictFree p0 p1 p2
    (hlen p0 hp0) (hlen p1 hp1) (hlen p2 hp2)
    (hnd p0 hp0) (hnd p1 hp1) (hnd p2 hp2)
  have hnc := completion_allNoConflict g0 s hcf hcomp
  have hsb : ∀ i, i < 9 → ∀ j, j < 9 → 1 ≤ s i j ∧ s i j ≤ 9 := by
    intro i hi j hj
    by_cases hz : g0 i j = 0
    · exact ⟨(hcomp.2.2 i hi j hj hz).1, (hcomp.2.2 i hi j hj hz).2.1⟩
    · rw [hcomp.1 i hi j hj hz]
      exact diagSeeded_bounds p0 p1 p2 (hmem p0 hp0) (hmem p1 hp1)
        (hmem p2 hp2) i j hz
  have hdel : generateBoard p0 p1 p2 coords = deleteRandomItems s coords := by
    unfold generateBoard
    rw [← hg0, hres]
  rw [hdel]
  refine ⟨?_, hcomp.2.1, ?_⟩
  · intro i hi j hj hnz
    by_cases hm : (i, j) ∈ coords
    · exact absurd (deleteRandomItems_mem coords s i j hm) hnz
    · rw [deleteRandomItems_not_mem coords s i j hm]
  · intro i hi j hj _
    exact ⟨(hsb i hi j hj).1, (hsb i hi j hj).2, hnc i hi j hj⟩

/-- Conditional round trip (claim C5's content, given that the seeded
board is completable): `solve` with the default plain solver returns
true on every generated board. -/
theorem generateBoard_roundTrip (p0 p1 p2 : List Nat)
    (hp0 : p0.Perm (List.range' 1 9)) (hp1 : p1.Perm (List.range' 1 9))
    (hp2 : p2.Perm (List.range' 1 9)) (coords : List (Nat × Nat))
    (hsol : Solvable (diagSeeded p0 p1 p2)) :
    (solve (generateBoard p0 p1 p2 coords) false).1 = true := by
  show (solveBoard (generateBoard p0 p1 p2 coords) 0 0).1 = true
  exact (solveBoard_true_iff _).mpr
    ⟨_, generateBoard_completion p0 p1 p2 hp0 hp1 hp2 coords hsol⟩

theorem length_filter_bnot {α : Type} (p : α → Bool) (l : List α) :
    (l.filter fun x => !(p x)).length = l.length - (l.filter p).length := by
  induction l with
  | nil => rfl
  | cons a l ih =>
    have hle := List.length_filter_le p l
    cases ha : p a <;>
      simp [List.filter_cons, ha, ih] <;> omega

/-- Conditional cell count (claim C8's content, given that the seeded
board is completable): the generated board has exactly one zero cell
per deleted coordinate and the remaining cells are nonzero. -/
theorem generateBoard_counts (p0 p1 p2 : List Nat)
    (hp0 : p0.Perm (List.range' 1 9)) (hp1 : p1.Perm (List.range' 1 9))
    (hp2 : p2.Perm (List.range' 1 9)) (coords : List (Nat × Nat))
    (hnd : coords.Nodup) (hrange : ∀ p ∈ coords, p.1 < 9 ∧ p.2 < 9)
    (hsol : Solvable (diagSeeded p0 p1 p2)) :
    numZeros (generateBoard p0 p1 p2 coords) = coords.length ∧
    numFilled (generateBoard p0 p1 p2 coords) = 81 - coords.length := by
  have hcomp := generateBoard_completion p0 p1 p2 hp0 hp1 hp2 coords hsol
  have hG : generateBoard p0 p1 p2 coords =
      deleteRandomItems (solveBoard (diagSeeded p0 p1 p2) 0 0).2 coords := rfl
  have hzero_iff : ∀ t, t < 81 →
      (generateBoard p0 p1 p2 coords (t / 9) (t % 9) = 0 ↔
        (t / 9, t % 9) ∈ coords) := by
    intro t ht
    constructor
    · intro hz
      by_contra hm
      rw [hG, deleteRandomItems_not_mem coords _ (t / 9) (t % 9) hm] at hz
      exact hcomp.2.1 (t / 9) (by omega) (t % 9) (by omega) hz
    · intro hm
      rw [hG]
      exact deleteRandomItems_mem coords _ (t / 9) (t % 9) hm
  have hperm : ((List.range 81).filter fun t =>
      generateBoard p0 p1 p2 coords (t / 9) (t % 9) == 0).Perm
        (coords.map fun q => 9 * q.1 + q.2) := by
    rw [List.perm_ext_iff_of_nodup]
    · intro t
      simp only [List.mem_filter, List.mem_range, beq_iff_eq, List.mem_map]
      constructor
      · rintro ⟨ht, hz⟩
        refine ⟨(t / 9, t % 9), (hzero_iff t ht).mp hz, by omega⟩
      · rintro ⟨q, hq, henc⟩
        obtain ⟨hq1, hq2⟩ := hrange q hq
        have ht : t < 81 := by omega
        have he1 : t / 9 = q.1 := by omega
        have he2 : t % 9 = q.2 := by omega
        refine ⟨ht, (hzero_iff t ht).mpr ?_⟩
        rw [he1, he2]
        exact hq
    · exact (List.nodup_range 81).filter _
    · refine List.Nodup.map_on ?_ hnd
      intro q hq q' hq' he
      obtain ⟨h1, h2⟩ := hrange q hq
      obtain ⟨h1', h2'⟩ := hrange q' hq'
      have : q.1 = q'.1 ∧ q.2 = q'.2 := by omega
      exact Prod.ext this.1 this.2
  have hlen : numZeros (generateBoard p0 p1 p2 coords) = coords.length := by
    have := hperm.length_eq
    simpa [numZeros] using this
  refine ⟨hlen, ?_⟩
  have hsplit := length_filter_bnot
    (fun t => generateBoard p0 p1 p2 coords (t / 9) (t % 9) == 0)
    (List.range 81)
  unfold numFilled
  rw [hsplit]
  rw [show ((List.range 81).filter fun t =>
      generateBoard p0 p1 p2 coords (t / 9) (t % 9) == 0).length =
      numZeros (generateBoard p0 p1 p2 coords) from rfl, hlen]
  simp

end Sudoku
